import Mathlib

/-!
# genkeys: ranking, word scoring, worker loop and aggregator loop

A shallow embedding of `cmd/genkeys/main.go`.

* A byte is a natural number (Go `byte`); a key or an address is a list of bytes.
* A Go index expression `s[i]` is the lookup `s[i]?`; the result `none` of a
  function stands for the run-time panic "index out of range".
* `address.AddrForKey` lives in another package and is a parameter.
* The key generator is the list of key pairs it returns, in order.
-/

namespace Genkeys

/-! ## Data model -/

/-- The struct `keySet` of the source: a private key and its public key. -/
structure keySet where
  priv : List Nat
  pub : List Nat
  deriving DecidableEq, Repr

/-- What one print event of `main` shows: the private key, the public key and
the address derived from the public key (the elapsed time is not modelled). -/
structure Record where
  priv : List Nat
  pub : List Nat
  addr : List Nat
  deriving DecidableEq, Repr

/-- The constant `ed25519.PublicKeySize`. -/
def PublicKeySize : Nat := 32

/-! ## Ranker: `isBetter` -/

/-- The loop `for idx := range oldPub` of `isBetter`, entered at index `idx`
with the part of `oldPub` from `idx` on still to visit. The head `o` of that
part is `oldPub[idx]`; `newPub[idx]` is read by index and panics when it is out
of range. -/
def isBetterLoop (newPub : List Nat) : List Nat → Nat → Option Bool
  | [], _ => some false
  | o :: rest, idx =>
    match newPub[idx]? with
    | none => none
    | some n =>
      if n < o then some true
      else if n > o then some false
      else isBetterLoop newPub rest (idx + 1)

/-- The function `isBetter(oldPub, newPub)`. -/
def isBetter (oldPub newPub : List Nat) : Option Bool :=
  isBetterLoop newPub oldPub 0

/-! ## WordScorer: the scan inside `doKeys` -/

/-- One disjunct `addr[idx] == x && addr[idx+1] == y` of the scan condition:
`addr[idx+1]` is read only when the first comparison holds. -/
def pairIs (addr : List Nat) (idx x y : Nat) : Option Bool :=
  match addr[idx]? with
  | none => none
  | some a =>
    if a = x then
      match addr[idx + 1]? with
      | none => none
      | some b => some (decide (b = y))
    else some false

/-- Short-circuit `||` over results that may panic. -/
def orElse (p q : Option Bool) : Option Bool :=
  match p with
  | none => none
  | some true => some true
  | some false => q

/-- The condition of the `if` in the scan loop, at index `idx`. -/
def wordAt (addr : List Nat) (idx : Nat) : Option Bool :=
  orElse (pairIs addr idx 0xba 0xbe) <|
  orElse (pairIs addr idx 0xbe 0xad) <|
  orElse (pairIs addr idx 0xbe 0xef) <|
  orElse (pairIs addr idx 0xde 0xad) <|
  orElse (pairIs addr idx 0xde 0xaf) <|
  orElse (pairIs addr idx 0xde 0xed) <|
  orElse (pairIs addr idx 0xfa 0xce) <|
  pairIs addr idx 0xfe 0xed

/-- The loop `for idx := 2; idx < len(addr)/2; idx += 2`, entered at `idx`
with `hitCount` hits so far. The first argument bounds the number of
iterations; `none` also stands for that bound being reached. -/
def wordScanLoop (addr : List Nat) : Nat → Nat → Int → Option Int
  | 0, _, _ => none
  | fuel + 1, idx, hitCount =>
    if idx < addr.length / 2 then
      match wordAt addr idx with
      | none => none
      | some true => wordScanLoop addr fuel (idx + 2) (hitCount + 1)
      | some false => wordScanLoop addr fuel (idx + 2) hitCount
    else some hitCount

/-- The scan of an address, from `hitCount := 0` and `idx := 2`. -/
def wordScan (addr : List Nat) : Option Int :=
  wordScanLoop addr (addr.length + 1) 2 0

/-- The value of `hitCount` when the filter of `doKeys` is reached: the scan of
the derived address when `minWordCount > 0`, else `0`. -/
def hitCountFor (AddrForKey : List Nat → List Nat) (minWordCount : Int)
    (pub : List Nat) : Option Int :=
  if minWordCount > 0 then wordScan (AddrForKey pub) else some 0

/-! ## Worker: `doKeys` -/

/-- One pass through the body of the outer `for` of `doKeys` on a generated key
pair `kp`, with local watermark `bestKey`. The result is the new watermark and
the key pair sent on `out`, if any. `isBetter` is called only when
`hitCount < minWordCount` is false. -/
def doKeysIter (AddrForKey : List Nat → List Nat) (minWordCount : Int)
    (bestKey : List Nat) (kp : keySet) : Option (List Nat × Option keySet) :=
  match hitCountFor AddrForKey minWordCount kp.pub with
  | none => none
  | some hitCount =>
    if hitCount < minWordCount then some (bestKey, none)
    else
      match isBetter bestKey kp.pub with
      | none => none
      | some false => some (bestKey, none)
      | some true => some (kp.pub, some kp)

/-- The outer `for` of `doKeys` over the generated key pairs `gens`, started
with watermark `bestKey`: the final watermark and the key pairs sent on `out`,
in order. -/
def doKeysRun (AddrForKey : List Nat → List Nat) (minWordCount : Int) :
    List Nat → List keySet → Option (List Nat × List keySet)
  | bestKey, [] => some (bestKey, [])
  | bestKey, kp :: rest =>
    match doKeysIter AddrForKey minWordCount bestKey kp with
    | none => none
    | some (bestKey1, sent) =>
      match doKeysRun AddrForKey minWordCount bestKey1 rest with
      | none => none
      | some (w, out) => some (w, sent.toList ++ out)

/-- The initial `bestKey` of `doKeys`: `PublicKeySize` bytes, each `0xff`. -/
def initialBestKey : List Nat := List.replicate PublicKeySize 0xff

/-- The function `doKeys` on the generated key pairs `gens`. -/
def doKeys (AddrForKey : List Nat → List Nat) (minWordCount : Int)
    (gens : List keySet) : Option (List Nat × List keySet) :=
  doKeysRun AddrForKey minWordCount initialBestKey gens

/-! ## Aggregator: the receive loop of `main` -/

/-- One pass through the receive loop of `main` on the received `newKey`, with
`currentBest` the global best (`[]` when unset): the new global best and the
record printed, if any. `isBetter` is evaluated before `len(currentBest) == 0`. -/
def mainIter (AddrForKey : List Nat → List Nat) (currentBest : List Nat)
    (newKey : keySet) : Option (List Nat × Option Record) :=
  match isBetter currentBest newKey.pub with
  | none => none
  | some b =>
    if b || currentBest.length == 0 then
      some (newKey.pub, some ⟨newKey.priv, newKey.pub, AddrForKey newKey.pub⟩)
    else some (currentBest, none)

/-- The receive loop of `main` over the received key pairs, started with global
best `currentBest`: the final global best and the records printed, in order. -/
def mainRun (AddrForKey : List Nat → List Nat) :
    List Nat → List keySet → Option (List Nat × List Record)
  | currentBest, [] => some (currentBest, [])
  | currentBest, newKey :: rest =>
    match mainIter AddrForKey currentBest newKey with
    | none => none
    | some (best1, printed) =>
      match mainRun AddrForKey best1 rest with
      | none => none
      | some (g, recs) => some (g, printed.toList ++ recs)

/-- The receive loop of `main` from startup, where `currentBest` is unset. -/
def mainLoop (AddrForKey : List Nat → List Nat) (received : List keySet) :
    Option (List Nat × List Record) :=
  mainRun AddrForKey [] received

/-- The record the receive loop prints for the key pair `kp`. -/
def recordOf (AddrForKey : List Nat → List Nat) (kp : keySet) : Record :=
  ⟨kp.priv, kp.pub, AddrForKey kp.pub⟩

/-! ## One worker feeding the aggregator -/

/-- The program with a single `doKeys` goroutine: the channel `newKeys` hands
the key pairs to the receive loop of `main` in the order the worker sent them.
The result is the final global best and the records printed, in order. -/
def singleWorkerRun (AddrForKey : List Nat → List Nat) (minWordCount : Int)
    (gens : List keySet) : Option (List Nat × List Record) :=
  match doKeys AddrForKey minWordCount gens with
  | none => none
  | some (_, out) => mainLoop AddrForKey out

/-! ## Indices read by the scan -/

/-- The indices of `addr` that `pairIs` reads, in order: `idx`, and `idx + 1`
when the first comparison holds. -/
def pairIsReads (addr : List Nat) (idx x : Nat) : List Nat :=
  match addr[idx]? with
  | none => [idx]
  | some a => if a = x then [idx, idx + 1] else [idx]

/-- The indices read by a short-circuit `||`: those of the left operand, then
those of the right operand when the left one is false. -/
def orElseReads (p : Option Bool) (readsP readsQ : List Nat) : List Nat :=
  match p with
  | some false => readsP ++ readsQ
  | _ => readsP

/-- The indices of `addr` that the condition `wordAt` reads, in order. -/
def wordAtReads (addr : List Nat) (idx : Nat) : List Nat :=
  orElseReads (pairIs addr idx 0xba 0xbe) (pairIsReads addr idx 0xba) <|
  orElseReads (pairIs addr idx 0xbe 0xad) (pairIsReads addr idx 0xbe) <|
  orElseReads (pairIs addr idx 0xbe 0xef) (pairIsReads addr idx 0xbe) <|
  orElseReads (pairIs addr idx 0xde 0xad) (pairIsReads addr idx 0xde) <|
  orElseReads (pairIs addr idx 0xde 0xaf) (pairIsReads addr idx 0xde) <|
  orElseReads (pairIs addr idx 0xde 0xed) (pairIsReads addr idx 0xde) <|
  orElseReads (pairIs addr idx 0xfa 0xce) (pairIsReads addr idx 0xfa) <|
  pairIsReads addr idx 0xfe

/-- The indices of `addr` that the scan loop reads, in order, with the control
flow of `wordScanLoop`. -/
def wordScanLoopReads (addr : List Nat) : Nat → Nat → List Nat
  | 0, _ => []
  | fuel + 1, idx =>
    if idx < addr.length / 2 then
      match wordAt addr idx with
      | none => wordAtReads addr idx
      | some _ => wordAtReads addr idx ++ wordScanLoopReads addr fuel (idx + 2)
    else []

/-- The indices of `addr` that the scan reads. -/
def wordScanReads (addr : List Nat) : List Nat :=
  wordScanLoopReads addr (addr.length + 1) 2

/-! ## Specification-side definitions -/

/-- Strict lexicographic order on byte sequences, from the words of the
specification: at the first index where the two differ, `a` has the smaller
byte. -/
def lexLess (a b : List Nat) : Prop :=
  ∃ (i x y : Nat), (∀ j, j < i → a[j]? = b[j]?) ∧ a[i]? = some x ∧ b[i]? = some y ∧ x < y

/-- The table of recognised byte pairs, from the words of the specification. -/
def wordTable : List (Nat × Nat) :=
  [(0xba, 0xbe), (0xbe, 0xad), (0xbe, 0xef), (0xde, 0xad),
   (0xde, 0xaf), (0xde, 0xed), (0xfa, 0xce), (0xfe, 0xed)]

/-- Whether the aligned window of `addr` at `idx` holds a pattern of the table. -/
def windowMatches (addr : List Nat) (idx : Nat) : Bool :=
  match addr[idx]?, addr[idx + 1]? with
  | some a, some b => decide ((a, b) ∈ wordTable)
  | _, _ => false

/-- The number of indices among 2, 4 and 6 whose window holds a table pattern. -/
def specHitCount (addr : List Nat) : Nat :=
  [2, 4, 6].countP (windowMatches addr)

/-- The order `lexLess` as a function: the heads decide when they differ, else
the tails do. -/
def lexLessB : List Nat → List Nat → Bool
  | a :: as, b :: bs => decide (a < b) || (decide (a = b) && lexLessB as bs)
  | _, _ => false

/-- The strict running minima of the public keys of `keys` below `w`: the key
pairs whose public key is below `w` and below every public key before it. -/
def runningMinima : List Nat → List keySet → List keySet
  | _, [] => []
  | w, kp :: rest =>
    if lexLessB kp.pub w then kp :: runningMinima kp.pub rest
    else runningMinima w rest

/-- Whether the hit count of the address derived from the key meets the
threshold. -/
def meetsThreshold (AddrForKey : List Nat → List Nat) (minWordCount : Int)
    (kp : keySet) : Bool :=
  decide (minWordCount ≤ (specHitCount (AddrForKey kp.pub) : Int))

/-! ## Sample inputs -/

/-- A stand-in for `address.AddrForKey`: the first 16 bytes of the key. -/
def stubAddrForKey (pub : List Nat) : List Nat := pub.take 16

/-- A 32-byte key: the bytes `front`, then zeros. -/
def sampleKey (front : List Nat) : List Nat :=
  front ++ List.replicate (PublicKeySize - front.length) 0x00

/-- Three generated key pairs. The first has the words `dead` and `beef` at
offsets 2 and 4 of its stub address, the second is lower and has no word in
the scanned windows, the third is lower still and has the word `face` at
offset 6. -/
def sampleGens : List keySet :=
  [⟨[0x01], sampleKey [0x7f, 0x00, 0xde, 0xad, 0xbe, 0xef]⟩,
   ⟨[0x02], sampleKey [0x10, 0x00, 0x00, 0x00, 0x00, 0x00, 0x00, 0x00, 0xde, 0xad]⟩,
   ⟨[0x03], sampleKey [0x02, 0x00, 0x00, 0x00, 0x00, 0x00, 0xfa, 0xce]⟩]

/-- The generated key pairs of the end-to-end scenario: every byte `0xff`, then
every byte `0x00`, then `0x00, 0x01` followed by zeros. -/
def scenarioGens : List keySet :=
  [⟨[0x0a], List.replicate PublicKeySize 0xff⟩,
   ⟨[0x0b], List.replicate PublicKeySize 0x00⟩,
   ⟨[0x0c], sampleKey [0x00, 0x01]⟩]

/-! ## Evaluation checks -/

theorem isBetter_lower_second_byte :
    isBetter [0x00, 0x02, 0x09] [0x00, 0x01, 0xc8] = some true := by decide

theorem isBetter_higher_second_byte :
    isBetter [0x00, 0x01, 0x09] [0x00, 0x02, 0x00] = some false := by decide

theorem isBetter_short_new_key : isBetter [0x00, 0x01, 0x09] [0x00, 0x01] = none := by decide

theorem wordScan_sample :
    wordScan [0xde, 0xad, 0xbe, 0xef, 0x00, 0x00, 0xfa, 0xce,
      0xde, 0xad, 0x00, 0x00, 0x00, 0x00, 0x00, 0x00] = some 2 := by decide

theorem doKeys_sample_threshold_one :
    (doKeys stubAddrForKey 1 sampleGens).map (fun r => r.2.map keySet.priv) =
      some [[0x01], [0x03]] := by decide

theorem doKeys_sample_threshold_zero :
    (doKeys stubAddrForKey 0 sampleGens).map (fun r => r.2.map keySet.priv) =
      some [[0x01], [0x02], [0x03]] := by decide

theorem mainLoop_sample_reversed :
    (mainLoop stubAddrForKey sampleGens.reverse).map (fun r => r.2.map Record.priv) =
      some [[0x03]] := by decide

theorem wordScanReads_sample :
    wordScanReads [0x02, 0x00, 0xbe, 0xef, 0x00, 0x00, 0xfa, 0xce,
      0xde, 0xad, 0x00, 0x00, 0x00, 0x00, 0x00, 0x00] =
      [2, 2, 3, 2, 3, 4, 4, 4, 4, 4, 4, 4, 4, 6, 6, 6, 6, 6, 6, 6, 7] := by decide

theorem singleWorkerRun_scenario :
    (singleWorkerRun stubAddrForKey 0 scenarioGens).map (fun r => r.2.map Record.priv) =
      some [[0x0b]] := by decide

/-- When the first key of the scenario starts 0xff, 0xff but is not all 0xff, it
is below the initial watermark and two records are printed. -/
theorem singleWorkerRun_first_key_below_watermark :
    (singleWorkerRun stubAddrForKey 0
        (⟨[0x0a], sampleKey [0xff, 0xff]⟩ :: scenarioGens.tail)).map
      (fun r => r.2.map Record.priv) = some [[0x0a], [0x0b]] := by decide

theorem doKeys_sample_threshold_zero_full :
    doKeys stubAddrForKey 0 sampleGens =
      some (sampleKey [0x02, 0x00, 0x00, 0x00, 0x00, 0x00, 0xfa, 0xce], sampleGens) := by
  decide

/-! ## Lemmas on `isBetter` -/

theorem isBetterLoop_cons_succ (n : Nat) (ns : List Nat) (os : List Nat) (idx : Nat) :
    isBetterLoop (n :: ns) os (idx + 1) = isBetterLoop ns os idx := by
  induction os generalizing idx with
  | nil => rfl
  | cons o rest ih =>
    simp only [isBetterLoop, List.getElem?_cons_succ]
    cases ns[idx]? with
    | none => rfl
    | some m => simp only [ih]

theorem isBetter_nil_left (newPub : List Nat) : isBetter [] newPub = some false := rfl

theorem isBetter_cons_nil (o : Nat) (os : List Nat) : isBetter (o :: os) [] = none := rfl

theorem isBetter_cons_cons (o n : Nat) (os ns : List Nat) :
    isBetter (o :: os) (n :: ns) =
      if n < o then some true else if n > o then some false else isBetter os ns := by
  simp only [isBetter, isBetterLoop, List.getElem?_cons_zero, isBetterLoop_cons_succ]

theorem lexLess_nil_left (b : List Nat) : ¬ lexLess [] b := by
  rintro ⟨i, x, y, -, hx, -, -⟩
  simp at hx

theorem lexLess_nil_right (a : List Nat) : ¬ lexLess a [] := by
  rintro ⟨i, x, y, -, -, hy, -⟩
  simp at hy

theorem lexLess_cons_cons (n o : Nat) (ns os : List Nat) :
    lexLess (n :: ns) (o :: os) ↔ n < o ∨ (n = o ∧ lexLess ns os) := by
  constructor
  · rintro ⟨i, x, y, hag, hx, hy, hlt⟩
    cases i with
    | zero =>
      simp only [List.getElem?_cons_zero, Option.some.injEq] at hx hy
      subst hx; subst hy
      exact Or.inl hlt
    | succ k =>
      right
      have h0 := hag 0 (Nat.succ_pos k)
      simp only [List.getElem?_cons_zero, Option.some.injEq] at h0
      refine ⟨h0, k, x, y, ?_, ?_, ?_, hlt⟩
      · intro j hj
        have := hag (j + 1) (Nat.succ_lt_succ hj)
        simpa only [List.getElem?_cons_succ] using this
      · simpa only [List.getElem?_cons_succ] using hx
      · simpa only [List.getElem?_cons_succ] using hy
  · rintro (hlt | ⟨rfl, i, x, y, hag, hx, hy, hlt⟩)
    · exact ⟨0, n, o, fun j hj => absurd hj (Nat.not_lt_zero j), by simp, by simp, hlt⟩
    · refine ⟨i + 1, x, y, ?_, ?_, ?_, hlt⟩
      · intro j hj
        cases j with
        | zero => simp
        | succ j =>
          simpa only [List.getElem?_cons_succ] using hag j (Nat.lt_of_succ_lt_succ hj)
      · simpa only [List.getElem?_cons_succ] using hx
      · simpa only [List.getElem?_cons_succ] using hy

/-- On sequences of equal length `isBetter` returns, and its result is `true`
exactly when the new sequence is lexicographically below the old one. -/
theorem isBetter_spec : ∀ (oldPub newPub : List Nat), oldPub.length = newPub.length →
    ∃ b, isBetter oldPub newPub = some b ∧ (b = true ↔ lexLess newPub oldPub)
  | [], newPub, _ => ⟨false, rfl, by simp [lexLess_nil_right]⟩
  | o :: os, [], h => by simp at h
  | o :: os, n :: ns, h => by
    obtain ⟨b, hb, hiff⟩ := isBetter_spec os ns (by simpa using h)
    rw [isBetter_cons_cons, lexLess_cons_cons]
    by_cases h1 : n < o
    · exact ⟨true, by simp [h1], by simp [h1]⟩
    · by_cases h2 : n > o
      · refine ⟨false, by simp [h1, h2], ?_⟩
        have : n ≠ o := Nat.ne_of_gt h2
        simp [h1, this]
      · have heq : n = o := by omega
        refine ⟨b, by simp [h1, h2, hb], ?_⟩
        simp [heq, hiff]

/-- The order `lexLess` is irreflexive. -/
theorem lexLess_irrefl (a : List Nat) : ¬ lexLess a a := by
  rintro ⟨i, x, y, -, hx, hy, hlt⟩
  rw [hx] at hy
  simp only [Option.some.injEq] at hy
  omega

theorem isBetter_true_iff (oldPub newPub : List Nat)
    (hlen : oldPub.length = newPub.length) :
    isBetter oldPub newPub = some true ↔ lexLess newPub oldPub := by
  obtain ⟨b, hb, hiff⟩ := isBetter_spec oldPub newPub hlen
  rw [hb, ← hiff]
  simp

theorem isBetter_false_iff (oldPub newPub : List Nat)
    (hlen : oldPub.length = newPub.length) :
    isBetter oldPub newPub = some false ↔ ¬ lexLess newPub oldPub := by
  obtain ⟨b, hb, hiff⟩ := isBetter_spec oldPub newPub hlen
  rw [hb, ← hiff]
  simp

/-- The order `lexLess` is asymmetric. -/
theorem lexLess_asymm (a b : List Nat) (hab : lexLess a b) : ¬ lexLess b a := by
  obtain ⟨i, x, y, hag, hx, hy, hlt⟩ := hab
  rintro ⟨k, u, v, hag2, hu, hv, hlt2⟩
  rcases Nat.lt_trichotomy i k with h | h | h
  · have := hag2 i h
    rw [hx, hy] at this
    simp only [Option.some.injEq] at this
    omega
  · subst h
    rw [hx] at hv
    rw [hy] at hu
    simp only [Option.some.injEq] at hu hv
    omega
  · have := hag k h
    rw [hu, hv] at this
    simp only [Option.some.injEq] at this
    omega

/-- The order `lexLess` is transitive. -/
theorem lexLess_trans (a b c : List Nat) (hab : lexLess a b) (hbc : lexLess b c) :
    lexLess a c := by
  obtain ⟨i, x, y, hag, hx, hy, hlt⟩ := hab
  obtain ⟨k, u, v, hag2, hu, hv, hlt2⟩ := hbc
  rcases Nat.lt_trichotomy i k with h | h | h
  · refine ⟨i, x, y, ?_, hx, ?_, hlt⟩
    · intro j hj
      rw [hag j hj, hag2 j (Nat.lt_trans hj h)]
    · rw [← hag2 i h, hy]
  · subst h
    rw [hy] at hu
    simp only [Option.some.injEq] at hu
    refine ⟨i, x, v, ?_, hx, hv, by omega⟩
    intro j hj
    rw [hag j hj, hag2 j hj]
  · refine ⟨k, u, v, ?_, ?_, hv, hlt2⟩
    · intro j hj
      rw [hag j (Nat.lt_trans hj h), hag2 j hj]
    · rw [hag k h, hu]

/-- Two distinct sequences of one length are comparable under `lexLess`. -/
theorem lexLess_total : ∀ (a b : List Nat), a.length = b.length → a ≠ b →
    lexLess a b ∨ lexLess b a
  | [], [], _, hne => absurd rfl hne
  | [], _ :: _, h, _ => by simp at h
  | _ :: _, [], h, _ => by simp at h
  | x :: xs, y :: ys, h, hne => by
    rw [lexLess_cons_cons, lexLess_cons_cons]
    rcases Nat.lt_trichotomy x y with hxy | hxy | hxy
    · exact Or.inl (Or.inl hxy)
    · subst hxy
      have hne2 : xs ≠ ys := fun e => hne (by rw [e])
      rcases lexLess_total xs ys (by simpa using h) hne2 with h1 | h1
      · exact Or.inl (Or.inr ⟨rfl, h1⟩)
      · exact Or.inr (Or.inr ⟨rfl, h1⟩)
    · exact Or.inr (Or.inl hxy)

/-- Transitivity of `isBetter` on sequences of one length. -/
theorem isBetter_trans (a b c : List Nat) (hab : a.length = b.length)
    (hbc : b.length = c.length) (h1 : isBetter a b = some true)
    (h2 : isBetter b c = some true) : isBetter a c = some true := by
  rw [isBetter_true_iff _ _ hab] at h1
  rw [isBetter_true_iff _ _ hbc] at h2
  exact (isBetter_true_iff _ _ (hab.trans hbc)).mpr (lexLess_trans _ _ _ h2 h1)

/-- No sequence is better than itself. -/
theorem isBetter_self (a : List Nat) : isBetter a a = some false :=
  (isBetter_false_iff _ _ rfl).mpr (lexLess_irrefl _)

/-! ## Lemmas on the word scan -/

theorem orElse_some_some (p q : Bool) : orElse (some p) (some q) = some (p || q) := by
  cases p <;> rfl

theorem pairIs_of_reads (addr : List Nat) (idx x y a b : Nat)
    (ha : addr[idx]? = some a) (hb : addr[idx + 1]? = some b) :
    pairIs addr idx x y = some (decide (a = x) && decide (b = y)) := by
  simp only [pairIs, ha, hb]
  by_cases h : a = x <;> simp [h]

/-- Where both bytes of the window are in range, the scan condition returns and
says whether the window holds a pattern of the table. -/
theorem wordAt_eq_windowMatches (addr : List Nat) (idx : Nat)
    (h : idx + 1 < addr.length) : wordAt addr idx = some (windowMatches addr idx) := by
  have h0 : idx < addr.length := Nat.lt_of_succ_lt h
  have ha : addr[idx]? = some addr[idx] := List.getElem?_eq_getElem h0
  have hb : addr[idx + 1]? = some addr[idx + 1] := List.getElem?_eq_getElem h
  generalize addr[idx] = a at ha
  generalize addr[idx + 1] = b at hb
  simp only [wordAt, pairIs_of_reads addr idx _ _ a b ha hb, orElse_some_some,
    windowMatches, ha, hb, wordTable]
  simp [Bool.decide_or, Bool.decide_and]

/-- The scan of a 16-byte address returns the number of matching windows among
those at 2, 4 and 6. -/
theorem wordScan_of_length_sixteen (addr : List Nat) (hlen : addr.length = 16) :
    wordScan addr = some (specHitCount addr : Int) := by
  have h2 := wordAt_eq_windowMatches addr 2 (by omega)
  have h4 := wordAt_eq_windowMatches addr 4 (by omega)
  have h6 := wordAt_eq_windowMatches addr 6 (by omega)
  rw [wordScan, hlen, show (16 + 1 : Nat) = 13 + 1 + 1 + 1 + 1 from rfl]
  simp only [wordScanLoop, hlen, h2, h4, h6, specHitCount, Nat.reduceAdd, Nat.reduceDiv,
    Nat.reduceLT, if_true, if_false, Nat.lt_irrefl]
  cases hw2 : windowMatches addr 2 <;> cases hw4 : windowMatches addr 4 <;>
    cases hw6 : windowMatches addr 6 <;> simp [List.countP_cons, hw2, hw4, hw6]

/-- The count of matching windows, window by window. -/
theorem specHitCount_eq_sum (addr : List Nat) :
    specHitCount addr =
      (if windowMatches addr 2 then 1 else 0) + (if windowMatches addr 4 then 1 else 0) +
        (if windowMatches addr 6 then 1 else 0) := by
  cases hw2 : windowMatches addr 2 <;> cases hw4 : windowMatches addr 4 <;>
    cases hw6 : windowMatches addr 6 <;>
    simp [specHitCount, List.countP_cons, hw2, hw4, hw6]

/-- The scan loop returns whenever the iteration bound covers the indices left,
and never lowers the count. -/
theorem wordScanLoop_returns (addr : List Nat) : ∀ (fuel idx : Nat) (hitCount : Int),
    addr.length / 2 ≤ idx + 2 * fuel →
    ∃ h, wordScanLoop addr (fuel + 1) idx hitCount = some h ∧ hitCount ≤ h
  | 0, idx, hitCount, hb => by
    have : ¬ idx < addr.length / 2 := by omega
    exact ⟨hitCount, by simp [wordScanLoop, this], le_refl _⟩
  | fuel + 1, idx, hitCount, hb => by
    rw [wordScanLoop]
    by_cases hc : idx < addr.length / 2
    · rw [if_pos hc, wordAt_eq_windowMatches addr idx (by omega)]
      cases windowMatches addr idx
      · exact wordScanLoop_returns addr fuel (idx + 2) hitCount (by omega)
      · obtain ⟨h, hh, hle⟩ :=
          wordScanLoop_returns addr fuel (idx + 2) (hitCount + 1) (by omega)
        exact ⟨h, hh, by omega⟩
    · rw [if_neg hc]
      exact ⟨hitCount, rfl, le_refl _⟩

/-- The scan of any address returns a count that is not negative. -/
theorem wordScan_returns (addr : List Nat) : ∃ h, wordScan addr = some h ∧ 0 ≤ h :=
  wordScanLoop_returns addr addr.length 2 0 (by omega)

/-- The hit count at the filter is available for every key and threshold, and
is `0` when the threshold is not positive. -/
theorem hitCountFor_returns (AddrForKey : List Nat → List Nat) (minWordCount : Int)
    (pub : List Nat) :
    ∃ h, hitCountFor AddrForKey minWordCount pub = some h ∧ 0 ≤ h ∧
      (minWordCount ≤ 0 → h = 0) ∧
      (0 < minWordCount → wordScan (AddrForKey pub) = some h) := by
  unfold hitCountFor
  by_cases hm : minWordCount > 0
  · obtain ⟨h, hh, h0⟩ := wordScan_returns (AddrForKey pub)
    exact ⟨h, by simp [hm, hh], h0, fun hle => by omega, fun _ => hh⟩
  · exact ⟨0, by simp [hm], le_refl _, fun _ => rfl, fun hpos => absurd hpos hm⟩

/-! ## Lemmas on the worker -/

/-- One worker iteration returns when watermark and key have one length, and
its result is fixed by the hit count and by the comparison. -/
theorem doKeysIter_eq (AddrForKey : List Nat → List Nat) (minWordCount : Int)
    (bestKey : List Nat) (kp : keySet) (hlen : bestKey.length = kp.pub.length) :
    ∃ h b, hitCountFor AddrForKey minWordCount kp.pub = some h ∧
      isBetter bestKey kp.pub = some b ∧
      doKeysIter AddrForKey minWordCount bestKey kp =
        some (if h < minWordCount ∨ b = false then (bestKey, none) else (kp.pub, some kp)) := by
  obtain ⟨h, hh, -⟩ := hitCountFor_returns AddrForKey minWordCount kp.pub
  obtain ⟨b, hb, -⟩ := isBetter_spec bestKey kp.pub hlen
  refine ⟨h, b, hh, hb, ?_⟩
  simp only [doKeysIter, hh, hb]
  by_cases hlt : h < minWordCount
  · simp [hlt]
  · cases b <;> simp [hlt]

/-- The hit count of an address meets every threshold the filter lets through. -/
theorem wordScan_meets_threshold (AddrForKey : List Nat → List Nat) (minWordCount : Int)
    (pub : List Nat) (h : Int) (hh : hitCountFor AddrForKey minWordCount pub = some h)
    (hge : ¬ h < minWordCount) :
    ∃ c, wordScan (AddrForKey pub) = some c ∧ minWordCount ≤ c := by
  obtain ⟨h1, hh1, h0, hz, hpos⟩ := hitCountFor_returns AddrForKey minWordCount pub
  rw [hh] at hh1
  simp only [Option.some.injEq] at hh1
  subst hh1
  by_cases hm : 0 < minWordCount
  · exact ⟨h, hpos hm, by omega⟩
  · obtain ⟨c, hc, hc0⟩ := wordScan_returns (AddrForKey pub)
    exact ⟨c, hc, by omega⟩

/-- The invariant of the worker loop, from any watermark of the length of the
generated keys: the loop returns; the final watermark has that length and is
the initial one or better; every key sent was generated, is better than the
initial watermark and has a hit count that meets the threshold; and each key
sent is better than the ones sent before it. -/
theorem doKeysRun_inv (AddrForKey : List Nat → List Nat) (minWordCount : Int) (n : Nat) :
    ∀ (gens : List keySet) (bestKey : List Nat), bestKey.length = n →
      (∀ kp ∈ gens, kp.pub.length = n) →
      ∃ w out, doKeysRun AddrForKey minWordCount bestKey gens = some (w, out) ∧
        w.length = n ∧ (w = bestKey ∨ isBetter bestKey w = some true) ∧
        (∀ kp ∈ out, kp ∈ gens ∧ kp.pub.length = n ∧
          isBetter bestKey kp.pub = some true ∧
          ∃ c, wordScan (AddrForKey kp.pub) = some c ∧ minWordCount ≤ c) ∧
        List.Pairwise (fun earlier later => isBetter earlier.pub later.pub = some true) out
  | [], bestKey, hb, _ =>
    ⟨bestKey, [], rfl, hb, Or.inl rfl, by simp, List.Pairwise.nil⟩
  | kp :: rest, bestKey, hb, hg => by
    have hkp : kp.pub.length = n := hg kp (List.mem_cons_self _ _)
    have hrest : ∀ k ∈ rest, k.pub.length = n := fun k hk => hg k (List.mem_cons_of_mem _ hk)
    obtain ⟨h, b, hh, hbt, hiter⟩ :=
      doKeysIter_eq AddrForKey minWordCount bestKey kp (hb.trans hkp.symm)
    by_cases hdrop : h < minWordCount ∨ b = false
    · rw [if_pos hdrop] at hiter
      obtain ⟨w, out, hrun, hw, hmono, hout, hpair⟩ :=
        doKeysRun_inv AddrForKey minWordCount n rest bestKey hb hrest
      refine ⟨w, out, by simp [doKeysRun, hiter, hrun], hw, hmono, ?_, hpair⟩
      intro k hk
      obtain ⟨h1, h2, h3, h4⟩ := hout k hk
      exact ⟨List.mem_cons_of_mem _ h1, h2, h3, h4⟩
    · rw [if_neg hdrop] at hiter
      have hge : ¬ h < minWordCount := fun hlt => hdrop (Or.inl hlt)
      have hbtrue : b = true := by
        cases b
        · exact absurd (Or.inr rfl) hdrop
        · rfl
      subst hbtrue
      obtain ⟨w, out, hrun, hw, hmono, hout, hpair⟩ :=
        doKeysRun_inv AddrForKey minWordCount n rest kp.pub hkp hrest
      have hup : ∀ x : List Nat, x.length = n → isBetter kp.pub x = some true →
          isBetter bestKey x = some true := fun x hx hlt =>
        isBetter_trans bestKey kp.pub x (hb.trans hkp.symm) (hkp.trans hx.symm) hbt hlt
      refine ⟨w, kp :: out, by simp [doKeysRun, hiter, hrun], hw, ?_, ?_, ?_⟩
      · right
        rcases hmono with rfl | hlt
        · exact hbt
        · exact hup w hw hlt
      · intro k hk
        rcases List.mem_cons.mp hk with rfl | hk
        · exact ⟨List.mem_cons_self _ _, hkp, hbt,
            wordScan_meets_threshold AddrForKey minWordCount _ h hh hge⟩
        · obtain ⟨h1, h2, h3, h4⟩ := hout k hk
          exact ⟨List.mem_cons_of_mem _ h1, h2, hup _ h2 h3, h4⟩
      · exact List.Pairwise.cons (fun k hk => (hout k hk).2.2.1) hpair

/-- The worker loop over a concatenation runs the first part, then the second
part from the watermark the first part left. -/
theorem doKeysRun_append (AddrForKey : List Nat → List Nat) (minWordCount : Int) :
    ∀ (g1 g2 : List keySet) (bestKey : List Nat),
      doKeysRun AddrForKey minWordCount bestKey (g1 ++ g2) =
        match doKeysRun AddrForKey minWordCount bestKey g1 with
        | none => none
        | some (w1, o1) =>
          match doKeysRun AddrForKey minWordCount w1 g2 with
          | none => none
          | some (w2, o2) => some (w2, o1 ++ o2)
  | [], g2, bestKey => by
    simp only [List.nil_append, doKeysRun]
    cases doKeysRun AddrForKey minWordCount bestKey g2 with
    | none => rfl
    | some r => simp
  | kp :: rest, g2, bestKey => by
    rw [List.cons_append]
    simp only [doKeysRun]
    cases doKeysIter AddrForKey minWordCount bestKey kp with
    | none => rfl
    | some r =>
      obtain ⟨b1, sent⟩ := r
      simp only [doKeysRun_append AddrForKey minWordCount rest g2 b1]
      cases doKeysRun AddrForKey minWordCount b1 rest with
      | none => rfl
      | some r1 =>
        obtain ⟨w1, o1⟩ := r1
        simp only
        cases doKeysRun AddrForKey minWordCount w1 g2 with
        | none => rfl
        | some r2 => simp

theorem initialBestKey_length : initialBestKey.length = PublicKeySize := by
  simp [initialBestKey]

/-! ## Lemmas on the aggregator -/

/-- One aggregator iteration from a set global best of the length of the
received key: it returns, and prints exactly when the key is better. -/
theorem mainIter_eq (AddrForKey : List Nat → List Nat) (currentBest : List Nat)
    (newKey : keySet) (hlen : currentBest.length = newKey.pub.length)
    (hset : 0 < currentBest.length) :
    ∃ b, isBetter currentBest newKey.pub = some b ∧
      mainIter AddrForKey currentBest newKey =
        some (if b = true then
            (newKey.pub, some ⟨newKey.priv, newKey.pub, AddrForKey newKey.pub⟩)
          else (currentBest, none)) := by
  obtain ⟨b, hb, -⟩ := isBetter_spec currentBest newKey.pub hlen
  refine ⟨b, hb, ?_⟩
  have hne : ¬ currentBest.length = 0 := by omega
  simp only [mainIter, hb]
  cases b <;> simp [hne]

/-- One aggregator iteration with the global best unset: the key is printed. -/
theorem mainIter_unset (AddrForKey : List Nat → List Nat) (newKey : keySet) :
    mainIter AddrForKey [] newKey =
      some (newKey.pub, some ⟨newKey.priv, newKey.pub, AddrForKey newKey.pub⟩) := by
  simp [mainIter, isBetter_nil_left]

/-- The invariant of the receive loop, from a set global best of the length of
the received keys: the loop returns; the final global best has that length and
is the initial one or better; every printed key is better than the initial
global best; and each printed key is better than the ones printed before it. -/
theorem mainRun_inv (AddrForKey : List Nat → List Nat) (n : Nat) (hn : 0 < n) :
    ∀ (received : List keySet) (currentBest : List Nat), currentBest.length = n →
      (∀ kp ∈ received, kp.pub.length = n) →
      ∃ g recs, mainRun AddrForKey currentBest received = some (g, recs) ∧
        g.length = n ∧ (g = currentBest ∨ isBetter currentBest g = some true) ∧
        (∀ r ∈ recs, r.pub.length = n ∧ isBetter currentBest r.pub = some true) ∧
        List.Pairwise (fun earlier later => isBetter earlier.pub later.pub = some true) recs
  | [], currentBest, hb, _ =>
    ⟨currentBest, [], rfl, hb, Or.inl rfl, by simp, List.Pairwise.nil⟩
  | kp :: rest, currentBest, hb, hg => by
    have hkp : kp.pub.length = n := hg kp (List.mem_cons_self _ _)
    have hrest : ∀ k ∈ rest, k.pub.length = n := fun k hk => hg k (List.mem_cons_of_mem _ hk)
    obtain ⟨b, hbt, hiter⟩ :=
      mainIter_eq AddrForKey currentBest kp (hb.trans hkp.symm) (by omega)
    cases b with
    | false =>
      simp only [Bool.false_eq_true, if_false] at hiter
      obtain ⟨g, recs, hrun, hgl, hmono, hrecs, hpair⟩ :=
        mainRun_inv AddrForKey n hn rest currentBest hb hrest
      exact ⟨g, recs, by simp [mainRun, hiter, hrun], hgl, hmono, hrecs, hpair⟩
    | true =>
      simp only [if_true] at hiter
      obtain ⟨g, recs, hrun, hgl, hmono, hrecs, hpair⟩ :=
        mainRun_inv AddrForKey n hn rest kp.pub hkp hrest
      have hup : ∀ x : List Nat, x.length = n → isBetter kp.pub x = some true →
          isBetter currentBest x = some true := fun x hx hlt =>
        isBetter_trans currentBest kp.pub x (hb.trans hkp.symm) (hkp.trans hx.symm) hbt hlt
      refine ⟨g, ⟨kp.priv, kp.pub, AddrForKey kp.pub⟩ :: recs,
        by simp [mainRun, hiter, hrun], hgl, ?_, ?_, ?_⟩
      · right
        rcases hmono with rfl | hlt
        · exact hbt
        · exact hup g hgl hlt
      · intro r hr
        rcases List.mem_cons.mp hr with rfl | hr
        · exact ⟨hkp, hbt⟩
        · exact ⟨(hrecs r hr).1, hup _ (hrecs r hr).1 (hrecs r hr).2⟩
      · exact List.Pairwise.cons (fun r hr => (hrecs r hr).2) hpair

/-- From startup the receive loop returns on keys of one positive length, and
each printed key is better than the ones printed before it. -/
theorem mainLoop_pairwise (AddrForKey : List Nat → List Nat) (n : Nat) (hn : 0 < n)
    (received : List keySet) (hg : ∀ kp ∈ received, kp.pub.length = n) :
    ∃ g recs, mainLoop AddrForKey received = some (g, recs) ∧
      List.Pairwise (fun earlier later => isBetter earlier.pub later.pub = some true) recs := by
  cases received with
  | nil => exact ⟨[], [], rfl, List.Pairwise.nil⟩
  | cons kp rest =>
    have hkp : kp.pub.length = n := hg kp (List.mem_cons_self _ _)
    have hrest : ∀ k ∈ rest, k.pub.length = n := fun k hk => hg k (List.mem_cons_of_mem _ hk)
    obtain ⟨g, recs, hrun, -, -, hrecs, hpair⟩ :=
      mainRun_inv AddrForKey n hn rest kp.pub hkp hrest
    refine ⟨g, ⟨kp.priv, kp.pub, AddrForKey kp.pub⟩ :: recs, ?_, ?_⟩
    · simp [mainLoop, mainRun, mainIter_unset, hrun]
    · exact List.Pairwise.cons (fun r hr => (hrecs r hr).2) hpair

/-! ## Lemmas on the initial watermark -/

theorem initialBestKey_getElem? (i x : Nat) (h : initialBestKey[i]? = some x) : x = 0xff := by
  rw [initialBestKey, List.getElem?_replicate] at h
  by_cases hi : i < PublicKeySize
  · rw [if_pos hi] at h
    simp only [Option.some.injEq] at h
    exact h.symm
  · rw [if_neg hi] at h
    simp at h

/-- No sequence of bytes is above the initial watermark. -/
theorem not_lexLess_initialBestKey (k : List Nat) (hbytes : ∀ b ∈ k, b < 256) :
    ¬ lexLess initialBestKey k := by
  rintro ⟨i, x, y, -, hx, hy, hlt⟩
  have hx255 := initialBestKey_getElem? i x hx
  have hy256 := hbytes y (List.getElem?_mem hy)
  omega

/-! ## Lemmas on the indices read by the scan -/

theorem mem_pairIsReads (addr : List Nat) (idx x i : Nat)
    (h : i ∈ pairIsReads addr idx x) : i = idx ∨ i = idx + 1 := by
  unfold pairIsReads at h
  cases hr : addr[idx]? with
  | none =>
    rw [hr] at h
    simp only [List.mem_singleton] at h
    exact Or.inl h
  | some a =>
    rw [hr] at h
    by_cases ha : a = x
    · simpa [ha] using h
    · simp only [ha, if_false, List.mem_singleton] at h
      exact Or.inl h

theorem mem_orElseReads (p : Option Bool) (readsP readsQ : List Nat) (i : Nat)
    (h : i ∈ orElseReads p readsP readsQ) : i ∈ readsP ∨ i ∈ readsQ := by
  unfold orElseReads at h
  split at h
  · exact List.mem_append.mp h
  · exact Or.inl h

/-- The scan condition at `idx` reads at most the indices `idx` and `idx + 1`. -/
theorem mem_wordAtReads (addr : List Nat) (idx i : Nat) (h : i ∈ wordAtReads addr idx) :
    i = idx ∨ i = idx + 1 := by
  unfold wordAtReads at h
  rcases mem_orElseReads _ _ _ _ h with h | h
  · exact mem_pairIsReads _ _ _ _ h
  rcases mem_orElseReads _ _ _ _ h with h | h
  · exact mem_pairIsReads _ _ _ _ h
  rcases mem_orElseReads _ _ _ _ h with h | h
  · exact mem_pairIsReads _ _ _ _ h
  rcases mem_orElseReads _ _ _ _ h with h | h
  · exact mem_pairIsReads _ _ _ _ h
  rcases mem_orElseReads _ _ _ _ h with h | h
  · exact mem_pairIsReads _ _ _ _ h
  rcases mem_orElseReads _ _ _ _ h with h | h
  · exact mem_pairIsReads _ _ _ _ h
  rcases mem_orElseReads _ _ _ _ h with h | h
  · exact mem_pairIsReads _ _ _ _ h
  · exact mem_pairIsReads _ _ _ _ h

/-- From an even index on, the scan loop over a 16-byte address reads only
indices from that index up to 7. -/
theorem mem_wordScanLoopReads (addr : List Nat) (hlen : addr.length = 16) :
    ∀ (fuel idx i : Nat), idx % 2 = 0 → i ∈ wordScanLoopReads addr fuel idx →
      idx ≤ i ∧ i ≤ 7
  | 0, _, _, _, h => by simp [wordScanLoopReads] at h
  | fuel + 1, idx, i, heven, h => by
    rw [wordScanLoopReads, hlen] at h
    by_cases hc : idx < 16 / 2
    · rw [if_pos hc] at h
      have hat : i ∈ wordAtReads addr idx → idx ≤ i ∧ i ≤ 7 := by
        intro hm
        rcases mem_wordAtReads addr idx i hm with rfl | rfl <;> omega
      cases hw : wordAt addr idx with
      | none =>
        rw [hw] at h
        exact hat h
      | some v =>
        rw [hw] at h
        rcases List.mem_append.mp h with h | h
        · exact hat h
        · have := mem_wordScanLoopReads addr hlen fuel (idx + 2) i (by omega) h
          omega
    · rw [if_neg hc] at h
      simp at h

/-! ## Lemmas on high thresholds -/

/-- The count of matching windows is at most 3. -/
theorem specHitCount_le_three (addr : List Nat) : specHitCount addr ≤ 3 :=
  List.countP_le_length (windowMatches addr)

/-- With a threshold of 4 or more the worker loop sends nothing and leaves the
watermark as it is, on keys whose derived addresses have 16 bytes. -/
theorem doKeysRun_high_threshold (AddrForKey : List Nat → List Nat) (minWordCount : Int)
    (h4 : 4 ≤ minWordCount) :
    ∀ (gens : List keySet) (bestKey : List Nat),
      (∀ kp ∈ gens, (AddrForKey kp.pub).length = 16) →
      doKeysRun AddrForKey minWordCount bestKey gens = some (bestKey, [])
  | [], _, _ => rfl
  | kp :: rest, bestKey, haddr => by
    have hk := haddr kp (List.mem_cons_self _ _)
    have hrest := doKeysRun_high_threshold AddrForKey minWordCount h4 rest bestKey
      (fun k hk => haddr k (List.mem_cons_of_mem _ hk))
    have hpos : minWordCount > 0 := by omega
    have hhit : hitCountFor AddrForKey minWordCount kp.pub =
        some (specHitCount (AddrForKey kp.pub) : Int) := by
      rw [hitCountFor, if_pos hpos, wordScan_of_length_sixteen _ hk]
    have hlt : (specHitCount (AddrForKey kp.pub) : Int) < minWordCount := by
      have := specHitCount_le_three (AddrForKey kp.pub)
      omega
    simp [doKeysRun, doKeysIter, hhit, hlt, hrest]

/-! ## Lemmas on the threshold 0 and on the running minima -/

/-- The function `lexLessB` decides the order `lexLess`. -/
theorem lexLessB_iff : ∀ (a b : List Nat), lexLessB a b = true ↔ lexLess a b
  | [], b => by simp [lexLessB, lexLess_nil_left]
  | _ :: _, [] => by simp [lexLessB, lexLess_nil_right]
  | x :: xs, y :: ys => by
    rw [lexLess_cons_cons, ← lexLessB_iff xs ys]
    simp [lexLessB]

/-- On sequences of equal length `isBetter` computes `lexLessB`. -/
theorem isBetter_eq_lexLessB (oldPub newPub : List Nat)
    (hlen : oldPub.length = newPub.length) :
    isBetter oldPub newPub = some (lexLessB newPub oldPub) := by
  obtain ⟨b, hb, hiff⟩ := isBetter_spec oldPub newPub hlen
  rw [hb]
  congr 1
  cases hl : lexLessB newPub oldPub
  · cases b
    · rfl
    · have := (lexLessB_iff _ _).mpr (hiff.mp rfl)
      rw [hl] at this
      exact absurd this (by decide)
  · exact hiff.mpr ((lexLessB_iff _ _).mp hl)

/-- With threshold 0 a worker iteration does not use the address deriver: its
result is fixed by the comparison with the watermark. -/
theorem doKeysIter_threshold_zero (AddrForKey : List Nat → List Nat) (bestKey : List Nat)
    (kp : keySet) :
    doKeysIter AddrForKey 0 bestKey kp =
      match isBetter bestKey kp.pub with
      | none => none
      | some false => some (bestKey, none)
      | some true => some (kp.pub, some kp) := by
  simp [doKeysIter, hitCountFor]

/-- With threshold 0 the worker loop is the same for any two address derivers. -/
theorem doKeysRun_threshold_zero (A1 A2 : List Nat → List Nat) :
    ∀ (gens : List keySet) (bestKey : List Nat),
      doKeysRun A1 0 bestKey gens = doKeysRun A2 0 bestKey gens
  | [], _ => rfl
  | kp :: rest, bestKey => by
    simp only [doKeysRun, doKeysIter_threshold_zero]
    cases isBetter bestKey kp.pub with
    | none => rfl
    | some b =>
      cases b
      · simp only [doKeysRun_threshold_zero A1 A2 rest bestKey]
      · simp only [doKeysRun_threshold_zero A1 A2 rest kp.pub]

/-- With threshold 0 the worker loop sends the strict running minima, from its
watermark on, of all generated keys. -/
theorem doKeysRun_zero_eq_runningMinima (AddrForKey : List Nat → List Nat) (n : Nat) :
    ∀ (gens : List keySet) (bestKey : List Nat), bestKey.length = n →
      (∀ kp ∈ gens, kp.pub.length = n) →
      ∃ w, doKeysRun AddrForKey 0 bestKey gens = some (w, runningMinima bestKey gens)
  | [], bestKey, _, _ => ⟨bestKey, rfl⟩
  | kp :: rest, bestKey, hb, hg => by
    have hkp : kp.pub.length = n := hg kp (List.mem_cons_self _ _)
    have hrest : ∀ k ∈ rest, k.pub.length = n := fun k hk => hg k (List.mem_cons_of_mem _ hk)
    have hcmp := isBetter_eq_lexLessB bestKey kp.pub (hb.trans hkp.symm)
    cases hl : lexLessB kp.pub bestKey
    · obtain ⟨w, hw⟩ := doKeysRun_zero_eq_runningMinima AddrForKey n rest bestKey hb hrest
      rw [hl] at hcmp
      exact ⟨w, by simp [doKeysRun, doKeysIter_threshold_zero, hcmp, hw, runningMinima, hl]⟩
    · obtain ⟨w, hw⟩ := doKeysRun_zero_eq_runningMinima AddrForKey n rest kp.pub hkp hrest
      rw [hl] at hcmp
      exact ⟨w, by simp [doKeysRun, doKeysIter_threshold_zero, hcmp, hw, runningMinima, hl]⟩

/-- With threshold 0, the worker loop over generated keys followed by one more
key pair sends that key pair, and moves the watermark to it, exactly when it is
better than the watermark the earlier keys left. -/
theorem doKeysRun_zero_snoc (AddrForKey : List Nat → List Nat) (bestKey : List Nat)
    (pre : List keySet) (k : keySet) (w1 : List Nat) (out1 : List keySet) (b : Bool)
    (hrun : doKeysRun AddrForKey 0 bestKey pre = some (w1, out1))
    (hb : isBetter w1 k.pub = some b) :
    doKeysRun AddrForKey 0 bestKey (pre ++ [k]) =
      some (if b = true then (k.pub, out1 ++ [k]) else (w1, out1)) := by
  rw [doKeysRun_append]
  simp only [hrun, doKeysRun, doKeysIter_threshold_zero, hb]
  cases b <;> simp

theorem initialBestKey_cons : initialBestKey = 0xff :: List.replicate 31 0xff := rfl

/-! ## Lemmas on the single-worker pipeline -/

/-- The filter of a worker iteration lets a key through exactly when the count
of matching windows of its 16-byte address meets the threshold. -/
theorem hitCountFor_lt_iff (AddrForKey : List Nat → List Nat) (minWordCount : Int)
    (kp : keySet) (haddr : (AddrForKey kp.pub).length = 16) (h : Int)
    (hh : hitCountFor AddrForKey minWordCount kp.pub = some h) :
    h < minWordCount ↔ meetsThreshold AddrForKey minWordCount kp = false := by
  unfold hitCountFor at hh
  by_cases hpos : minWordCount > 0
  · rw [if_pos hpos, wordScan_of_length_sixteen _ haddr] at hh
    simp only [Option.some.injEq] at hh
    subst hh
    simp [meetsThreshold]
  · rw [if_neg hpos] at hh
    simp only [Option.some.injEq] at hh
    subst hh
    simp only [meetsThreshold, decide_eq_false_iff_not]
    omega

/-- The worker loop sends the strict running minima, from its watermark on, of
the generated keys that meet the threshold. -/
theorem doKeysRun_eq_runningMinima (AddrForKey : List Nat → List Nat) (minWordCount : Int)
    (n : Nat) :
    ∀ (gens : List keySet) (bestKey : List Nat), bestKey.length = n →
      (∀ kp ∈ gens, kp.pub.length = n) →
      (∀ kp ∈ gens, (AddrForKey kp.pub).length = 16) →
      ∃ w, doKeysRun AddrForKey minWordCount bestKey gens =
        some (w, runningMinima bestKey (gens.filter (meetsThreshold AddrForKey minWordCount)))
  | [], bestKey, _, _, _ => ⟨bestKey, rfl⟩
  | kp :: rest, bestKey, hb, hg, ha => by
    have hkp : kp.pub.length = n := hg kp (List.mem_cons_self _ _)
    have hrest : ∀ k ∈ rest, k.pub.length = n := fun k hk => hg k (List.mem_cons_of_mem _ hk)
    have harest : ∀ k ∈ rest, (AddrForKey k.pub).length = 16 :=
      fun k hk => ha k (List.mem_cons_of_mem _ hk)
    obtain ⟨h, b, hh, hbt, hiter⟩ :=
      doKeysIter_eq AddrForKey minWordCount bestKey kp (hb.trans hkp.symm)
    have hfilter := hitCountFor_lt_iff AddrForKey minWordCount kp
      (ha kp (List.mem_cons_self _ _)) h hh
    rw [isBetter_eq_lexLessB _ _ (hb.trans hkp.symm)] at hbt
    simp only [Option.some.injEq] at hbt
    subst hbt
    by_cases hlt : h < minWordCount
    · have hm := hfilter.mp hlt
      rw [if_pos (Or.inl hlt)] at hiter
      obtain ⟨w, hw⟩ :=
        doKeysRun_eq_runningMinima AddrForKey minWordCount n rest bestKey hb hrest harest
      refine ⟨w, ?_⟩
      simp [doKeysRun, hiter, hw, hm]
    · have hm : meetsThreshold AddrForKey minWordCount kp = true := by
        cases hc : meetsThreshold AddrForKey minWordCount kp
        · exact absurd (hfilter.mpr hc) hlt
        · rfl
      cases hl : lexLessB kp.pub bestKey
      · rw [hl, if_pos (Or.inr rfl)] at hiter
        obtain ⟨w, hw⟩ :=
          doKeysRun_eq_runningMinima AddrForKey minWordCount n rest bestKey hb hrest harest
        refine ⟨w, ?_⟩
        simp [doKeysRun, hiter, hw, hm, runningMinima, hl]
      · rw [hl, if_neg (by simp [hlt])] at hiter
        obtain ⟨w, hw⟩ :=
          doKeysRun_eq_runningMinima AddrForKey minWordCount n rest kp.pub hkp hrest harest
        refine ⟨w, ?_⟩
        simp [doKeysRun, hiter, hw, hm, runningMinima, hl]

/-- From a set global best, the receive loop prints every key pair of a list in
which each key is better than the global best and than the keys before it. -/
theorem mainRun_prints_all (AddrForKey : List Nat → List Nat) (n : Nat) (hn : 0 < n) :
    ∀ (out : List keySet) (g : List Nat), g.length = n →
      (∀ kp ∈ out, kp.pub.length = n) →
      (∀ kp ∈ out, isBetter g kp.pub = some true) →
      List.Pairwise (fun earlier later => isBetter earlier.pub later.pub = some true) out →
      ∃ g1, mainRun AddrForKey g out = some (g1, out.map (recordOf AddrForKey))
  | [], g, _, _, _, _ => ⟨g, rfl⟩
  | kp :: rest, g, hg, hlen, hbetter, hpair => by
    have hkp : kp.pub.length = n := hlen kp (List.mem_cons_self _ _)
    obtain ⟨b, hb, hiter⟩ := mainIter_eq AddrForKey g kp (hg.trans hkp.symm) (by omega)
    rw [hbetter kp (List.mem_cons_self _ _)] at hb
    simp only [Option.some.injEq] at hb
    subst hb
    simp only [if_true] at hiter
    rw [List.pairwise_cons] at hpair
    obtain ⟨g1, hrun⟩ := mainRun_prints_all AddrForKey n hn rest kp.pub hkp
      (fun k hk => hlen k (List.mem_cons_of_mem _ hk)) hpair.1 hpair.2
    exact ⟨g1, by simp [mainRun, hiter, hrun, recordOf]⟩

/-- From startup, the receive loop prints every key pair of a list of keys of
one positive length in which each key is better than the keys before it. -/
theorem mainLoop_prints_all (AddrForKey : List Nat → List Nat) (n : Nat) (hn : 0 < n)
    (out : List keySet) (hlen : ∀ kp ∈ out, kp.pub.length = n)
    (hpair : List.Pairwise
      (fun earlier later => isBetter earlier.pub later.pub = some true) out) :
    ∃ g, mainLoop AddrForKey out = some (g, out.map (recordOf AddrForKey)) := by
  cases out with
  | nil => exact ⟨[], rfl⟩
  | cons kp rest =>
    rw [List.pairwise_cons] at hpair
    obtain ⟨g1, hrun⟩ := mainRun_prints_all AddrForKey n hn rest kp.pub
      (hlen kp (List.mem_cons_self _ _))
      (fun k hk => hlen k (List.mem_cons_of_mem _ hk)) hpair.1 hpair.2
    exact ⟨g1, by simp [mainLoop, mainRun, mainIter_unset, hrun, recordOf]⟩

/-! ## Lemmas on the global best as a minimum -/

/-- From a set global best, the receive loop returns; its final global best is
the last key printed, or the initial one when nothing was printed; it is the
initial one or a received key below it; and every received key is the final
global best or above it. -/
theorem mainRun_minimum (AddrForKey : List Nat → List Nat) (n : Nat) (hn : 0 < n) :
    ∀ (received : List keySet) (g0 : List Nat), g0.length = n →
      (∀ kp ∈ received, kp.pub.length = n) →
      ∃ g recs, mainRun AddrForKey g0 received = some (g, recs) ∧
        ((recs.map Record.pub).getLast?).getD g0 = g ∧
        (g = g0 ∨ (g ∈ received.map keySet.pub ∧ lexLess g g0)) ∧
        (∀ kp ∈ received, kp.pub = g ∨ lexLess g kp.pub)
  | [], g0, _, _ => ⟨g0, [], rfl, rfl, Or.inl rfl, by simp⟩
  | kp :: rest, g0, hg, hlen => by
    have hkp : kp.pub.length = n := hlen kp (List.mem_cons_self _ _)
    have hrest : ∀ k ∈ rest, k.pub.length = n :=
      fun k hk => hlen k (List.mem_cons_of_mem _ hk)
    obtain ⟨b, hb, hiter⟩ := mainIter_eq AddrForKey g0 kp (hg.trans hkp.symm) (by omega)
    cases b with
    | false =>
      simp only [Bool.false_eq_true, if_false] at hiter
      have hnl : ¬ lexLess kp.pub g0 := (isBetter_false_iff _ _ (hg.trans hkp.symm)).mp hb
      obtain ⟨g, recs, hrun, hlast, hfrom, hmin⟩ :=
        mainRun_minimum AddrForKey n hn rest g0 hg hrest
      refine ⟨g, recs, by simp [mainRun, hiter, hrun], hlast, ?_, ?_⟩
      · rcases hfrom with h | ⟨h1, h2⟩
        · exact Or.inl h
        · exact Or.inr ⟨by simp only [List.map_cons]; exact List.mem_cons_of_mem _ h1, h2⟩
      · intro k hk
        rcases List.mem_cons.mp hk with rfl | hk
        · by_cases heq : k.pub = g0
          · rcases hfrom with h | ⟨-, h2⟩
            · exact Or.inl (heq.trans h.symm)
            · exact Or.inr (heq ▸ h2)
          · have hgk : lexLess g0 k.pub := by
              rcases lexLess_total k.pub g0 (hkp.trans hg.symm) heq with h | h
              · exact absurd h hnl
              · exact h
            rcases hfrom with h | ⟨-, h2⟩
            · exact Or.inr (h ▸ hgk)
            · exact Or.inr (lexLess_trans _ _ _ h2 hgk)
        · exact hmin k hk
    | true =>
      simp only [if_true] at hiter
      have hl : lexLess kp.pub g0 := (isBetter_true_iff _ _ (hg.trans hkp.symm)).mp hb
      obtain ⟨g, recs, hrun, hlast, hfrom, hmin⟩ :=
        mainRun_minimum AddrForKey n hn rest kp.pub hkp hrest
      refine ⟨g, ⟨kp.priv, kp.pub, AddrForKey kp.pub⟩ :: recs,
        by simp [mainRun, hiter, hrun], ?_, ?_, ?_⟩
      · simp only [List.map_cons, List.getLast?_cons, Option.getD_some]
        exact hlast
      · right
        rcases hfrom with h | ⟨h1, h2⟩
        · exact ⟨by simp [h], h ▸ hl⟩
        · exact ⟨by simp only [List.map_cons]; exact List.mem_cons_of_mem _ h1,
            lexLess_trans _ _ _ h2 hl⟩
      · intro k hk
        rcases List.mem_cons.mp hk with rfl | hk
        · rcases hfrom with h | ⟨-, h2⟩
          · exact Or.inl h.symm
          · exact Or.inr h2
        · exact hmin k hk

/-! ## Claims on the Ranker -/

/-- C1: for old and new of equal length, `isBetter old new` returns `true` if
and only if new is strictly below old in lexicographic byte order, returns
`false` if and only if it is not, and returns `false` when the two are equal. -/
theorem isBetter_iff_lexLess (oldPub newPub : List Nat)
    (hlen : oldPub.length = newPub.length) :
    (isBetter oldPub newPub = some true ↔ lexLess newPub oldPub) ∧
    (isBetter oldPub newPub = some false ↔ ¬ lexLess newPub oldPub) ∧
    (newPub = oldPub → isBetter oldPub newPub = some false) := by
  refine ⟨isBetter_true_iff _ _ hlen, isBetter_false_iff _ _ hlen, ?_⟩
  rintro rfl
  exact (isBetter_false_iff _ _ rfl).mpr (lexLess_irrefl _)

theorem isBetter_iff_lexLess_witness :
    [0x00, 0x02, 0x09].length = [0x00, 0x01, 0xc8].length ∧
    (isBetter [0x00, 0x02, 0x09] [0x00, 0x01, 0xc8] = some true ↔
      lexLess [0x00, 0x01, 0xc8] [0x00, 0x02, 0x09]) ∧
    (isBetter [0x00, 0x02, 0x09] [0x00, 0x01, 0xc8] = some false ↔
      ¬ lexLess [0x00, 0x01, 0xc8] [0x00, 0x02, 0x09]) ∧
    ([0x00, 0x01, 0xc8] = [0x00, 0x02, 0x09] →
      isBetter [0x00, 0x02, 0x09] [0x00, 0x01, 0xc8] = some false) :=
  ⟨by decide, isBetter_iff_lexLess [0x00, 0x02, 0x09] [0x00, 0x01, 0xc8] (by decide)⟩

/-- C2: for A and B of equal length, if A is better than B then B is not better
than A, and A is not better than itself. -/
theorem isBetter_asymm_irrefl (A B : List Nat) (hlen : A.length = B.length) :
    (isBetter B A = some true → isBetter A B = some false) ∧
    isBetter A A = some false := by
  constructor
  · intro h
    rw [isBetter_true_iff _ _ hlen.symm] at h
    exact (isBetter_false_iff _ _ hlen).mpr (lexLess_asymm _ _ h)
  · exact (isBetter_false_iff _ _ rfl).mpr (lexLess_irrefl _)

theorem isBetter_asymm_irrefl_witness :
    [0x01, 0x7f].length = [0x01, 0x80].length ∧
    ((isBetter [0x01, 0x80] [0x01, 0x7f] = some true →
        isBetter [0x01, 0x7f] [0x01, 0x80] = some false) ∧
      isBetter [0x01, 0x7f] [0x01, 0x7f] = some false) :=
  ⟨by decide, isBetter_asymm_irrefl [0x01, 0x7f] [0x01, 0x80] (by decide)⟩

/-- C3: on sequences of one length, "A is better than B" is transitive, and of
two distinct sequences exactly one is better than the other. -/
theorem isBetter_strict_total_order (A B C : List Nat)
    (hAB : A.length = B.length) (hBC : B.length = C.length) :
    (isBetter B A = some true → isBetter C B = some true → isBetter C A = some true) ∧
    (A ≠ B →
      (isBetter B A = some true ∧ isBetter A B = some false) ∨
      (isBetter A B = some true ∧ isBetter B A = some false)) := by
  constructor
  · intro h1 h2
    rw [isBetter_true_iff _ _ hAB.symm] at h1
    rw [isBetter_true_iff _ _ hBC.symm] at h2
    exact (isBetter_true_iff _ _ (hAB.trans hBC).symm).mpr (lexLess_trans _ _ _ h1 h2)
  · intro hne
    rcases lexLess_total A B hAB hne with h | h
    · exact Or.inl ⟨(isBetter_true_iff _ _ hAB.symm).mpr h,
        (isBetter_false_iff _ _ hAB).mpr (lexLess_asymm _ _ h)⟩
    · exact Or.inr ⟨(isBetter_true_iff _ _ hAB).mpr h,
        (isBetter_false_iff _ _ hAB.symm).mpr (lexLess_asymm _ _ h)⟩

theorem isBetter_strict_total_order_witness :
    [0x00, 0x05].length = [0x00, 0x09].length ∧
    [0x00, 0x09].length = [0x03, 0x00].length ∧
    (isBetter [0x00, 0x09] [0x00, 0x05] = some true →
      isBetter [0x03, 0x00] [0x00, 0x09] = some true →
      isBetter [0x03, 0x00] [0x00, 0x05] = some true) ∧
    ([0x00, 0x05] ≠ [0x00, 0x09] →
      (isBetter [0x00, 0x09] [0x00, 0x05] = some true ∧
        isBetter [0x00, 0x05] [0x00, 0x09] = some false) ∨
      (isBetter [0x00, 0x05] [0x00, 0x09] = some true ∧
        isBetter [0x00, 0x09] [0x00, 0x05] = some false)) :=
  ⟨by decide, by decide,
    isBetter_strict_total_order [0x00, 0x05] [0x00, 0x09] [0x03, 0x00] (by decide) (by decide)⟩

/-- C4: for A and B of equal length that agree below index i and have
A[i] < B[i], candidate A is better than incumbent B and B is not better than A,
whatever the bytes after index i are. -/
theorem isBetter_first_difference (A B : List Nat) (i a b : Nat)
    (hlen : A.length = B.length)
    (hagree : ∀ j, j < i → A[j]? = B[j]?)
    (hA : A[i]? = some a) (hB : B[i]? = some b) (hlt : a < b) :
    isBetter B A = some true ∧ isBetter A B = some false := by
  have hless : lexLess A B := ⟨i, a, b, hagree, hA, hB, hlt⟩
  exact ⟨(isBetter_true_iff _ _ hlen.symm).mpr hless,
    (isBetter_false_iff _ _ hlen).mpr (lexLess_asymm _ _ hless)⟩

theorem isBetter_first_difference_witness :
    isBetter [0x00, 0x02, 0x00, 0x00] [0x00, 0x01, 0xff, 0xff] = some true ∧
    isBetter [0x00, 0x01, 0xff, 0xff] [0x00, 0x02, 0x00, 0x00] = some false :=
  isBetter_first_difference [0x00, 0x01, 0xff, 0xff] [0x00, 0x02, 0x00, 0x00] 1 0x01 0x02
    (by decide) (by intro j hj; interval_cases j; rfl) (by decide) (by decide) (by decide)

/-! ## Claims on the WordScorer -/

/-- C5: for every 16-byte address the scan returns the number of indices among
2, 4 and 6 whose byte pair is one of the eight table patterns, each window
adding at most one. -/
theorem wordScan_eq_specHitCount (addr : List Nat) (hlen : addr.length = 16) :
    wordScan addr = some (specHitCount addr : Int) ∧
    specHitCount addr =
      (if windowMatches addr 2 then 1 else 0) + (if windowMatches addr 4 then 1 else 0) +
        (if windowMatches addr 6 then 1 else 0) := by
  exact ⟨wordScan_of_length_sixteen addr hlen, specHitCount_eq_sum addr⟩

theorem wordScan_eq_specHitCount_witness :
    [0xde, 0xad, 0xbe, 0xef, 0x00, 0x00, 0xfa, 0xce,
      0xde, 0xad, 0x00, 0x00, 0x00, 0x00, 0xfe, 0xed].length = 16 ∧
    wordScan [0xde, 0xad, 0xbe, 0xef, 0x00, 0x00, 0xfa, 0xce,
      0xde, 0xad, 0x00, 0x00, 0x00, 0x00, 0xfe, 0xed] = some (2 : Int) :=
  ⟨by decide, (wordScan_eq_specHitCount [0xde, 0xad, 0xbe, 0xef, 0x00, 0x00, 0xfa, 0xce,
      0xde, 0xad, 0x00, 0x00, 0x00, 0x00, 0xfe, 0xed] (by decide)).1⟩

/-- C6: two 16-byte addresses that agree on bytes 2 through 7 have the same hit
count; a table pattern at index 2-3 makes the count at least 1; and with no
table pattern in the windows at 2, 4 and 6 the count is 0 whatever bytes 0-1
and 8-15 hold. -/
theorem wordScan_depends_only_on_scanned_bytes (a b : List Nat)
    (ha : a.length = 16) (hb : b.length = 16)
    (hagree : ∀ i, 2 ≤ i → i < 8 → a[i]? = b[i]?) :
    wordScan a = wordScan b ∧
    (windowMatches a 2 = true → ∃ h, wordScan a = some h ∧ 1 ≤ h) ∧
    (windowMatches a 2 = false → windowMatches a 4 = false →
      windowMatches a 6 = false → wordScan a = some 0) := by
  have hw : ∀ i, 2 ≤ i → i + 1 < 8 → windowMatches a i = windowMatches b i := by
    intro i h1 h2
    simp only [windowMatches, hagree i h1 (by omega), hagree (i + 1) (by omega) h2]
  have h2 := hw 2 (by omega) (by omega)
  have h4 := hw 4 (by omega) (by omega)
  have h6 := hw 6 (by omega) (by omega)
  have hsa := And.intro (wordScan_of_length_sixteen a ha) (specHitCount_eq_sum a)
  have hsb := And.intro (wordScan_of_length_sixteen b hb) (specHitCount_eq_sum b)
  refine ⟨?_, ?_, ?_⟩
  · rw [hsa.1, hsb.1, hsa.2, hsb.2, h2, h4, h6]
  · intro hm
    refine ⟨_, hsa.1, ?_⟩
    rw [hsa.2, hm]
    simp only [if_true]
    omega
  · intro n2 n4 n6
    rw [hsa.1, hsa.2, n2, n4, n6]
    simp

theorem wordScan_depends_only_on_scanned_bytes_witness :
    wordScan [0xde, 0xad, 0x00, 0x00, 0x00, 0x00, 0x00, 0x00,
      0xbe, 0xef, 0xfa, 0xce, 0xde, 0xad, 0xba, 0xbe] =
    wordScan [0x02, 0x00, 0x00, 0x00, 0x00, 0x00, 0x00, 0x00,
      0x00, 0x00, 0x00, 0x00, 0x00, 0x00, 0x00, 0x00] :=
  (wordScan_depends_only_on_scanned_bytes
    [0xde, 0xad, 0x00, 0x00, 0x00, 0x00, 0x00, 0x00,
      0xbe, 0xef, 0xfa, 0xce, 0xde, 0xad, 0xba, 0xbe]
    [0x02, 0x00, 0x00, 0x00, 0x00, 0x00, 0x00, 0x00,
      0x00, 0x00, 0x00, 0x00, 0x00, 0x00, 0x00, 0x00]
    (by decide) (by decide) (by intro i h1 h2; interval_cases i <;> rfl)).1

/-! ## Claims on the Worker -/

/-- C7: for every threshold, address deriver and list of generated 32-byte
keys the worker loop returns, and every key pair it sent has a word hit count,
computed on the address derived from its public key, of at least the threshold;
with threshold 1 a key whose 16-byte address has no table pattern at indices 2,
4 and 6 is not among the key pairs sent. -/
theorem doKeys_never_emits_below_threshold (AddrForKey : List Nat → List Nat)
    (minWordCount : Int) (gens : List keySet)
    (hpub : ∀ kp ∈ gens, kp.pub.length = PublicKeySize) :
    ∃ w out, doKeys AddrForKey minWordCount gens = some (w, out) ∧
      (∀ kp ∈ out, ∃ c, wordScan (AddrForKey kp.pub) = some c ∧ minWordCount ≤ c) ∧
      (minWordCount = 1 → ∀ kp : keySet, (AddrForKey kp.pub).length = 16 →
        windowMatches (AddrForKey kp.pub) 2 = false →
        windowMatches (AddrForKey kp.pub) 4 = false →
        windowMatches (AddrForKey kp.pub) 6 = false → kp ∉ out) := by
  obtain ⟨w, out, hrun, -, -, hout, -⟩ :=
    doKeysRun_inv AddrForKey minWordCount PublicKeySize gens initialBestKey
      initialBestKey_length hpub
  refine ⟨w, out, hrun, fun kp hk => (hout kp hk).2.2.2, ?_⟩
  intro hone kp hlen n2 n4 n6 hmem
  obtain ⟨c, hc, hle⟩ := (hout kp hmem).2.2.2
  rw [wordScan_of_length_sixteen _ hlen, specHitCount_eq_sum, n2, n4, n6] at hc
  simp only [Option.some.injEq] at hc
  subst hone
  simp at hc
  omega

theorem doKeys_never_emits_below_threshold_witness :
    (∀ kp ∈ sampleGens, kp.pub.length = PublicKeySize) ∧
    ∃ w out, doKeys stubAddrForKey 1 sampleGens = some (w, out) ∧
      (∀ kp ∈ out, ∃ c, wordScan (stubAddrForKey kp.pub) = some c ∧ (1 : Int) ≤ c) ∧
      ((1 : Int) = 1 → ∀ kp : keySet, (stubAddrForKey kp.pub).length = 16 →
        windowMatches (stubAddrForKey kp.pub) 2 = false →
        windowMatches (stubAddrForKey kp.pub) 4 = false →
        windowMatches (stubAddrForKey kp.pub) 6 = false → kp ∉ out) :=
  ⟨by decide, doKeys_never_emits_below_threshold stubAddrForKey 1 sampleGens (by decide)⟩

/-- C8: for every list of generated 32-byte keys and every threshold the worker
loop returns; each key it sent is better than every key it sent before; and
between any two moments of the run the watermark is unchanged or has become
better. -/
theorem doKeys_strictly_improving (AddrForKey : List Nat → List Nat)
    (minWordCount : Int) (gens : List keySet)
    (hpub : ∀ kp ∈ gens, kp.pub.length = PublicKeySize) :
    (∃ w out, doKeys AddrForKey minWordCount gens = some (w, out) ∧
      List.Pairwise (fun earlier later => isBetter earlier.pub later.pub = some true) out) ∧
    (∀ m k, ∃ w1 o1 w2 o2,
      doKeys AddrForKey minWordCount (gens.take m) = some (w1, o1) ∧
      doKeys AddrForKey minWordCount (gens.take (m + k)) = some (w2, o2) ∧
      (w2 = w1 ∨ isBetter w1 w2 = some true)) := by
  constructor
  · obtain ⟨w, out, hrun, -, -, -, hpair⟩ :=
      doKeysRun_inv AddrForKey minWordCount PublicKeySize gens initialBestKey
        initialBestKey_length hpub
    exact ⟨w, out, hrun, hpair⟩
  · intro m k
    have h1 : ∀ kp ∈ gens.take m, kp.pub.length = PublicKeySize :=
      fun kp hk => hpub kp (List.mem_of_mem_take hk)
    have h2 : ∀ kp ∈ (gens.drop m).take k, kp.pub.length = PublicKeySize :=
      fun kp hk => hpub kp (List.mem_of_mem_drop (List.mem_of_mem_take hk))
    obtain ⟨w1, o1, hrun1, hw1, -, -, -⟩ :=
      doKeysRun_inv AddrForKey minWordCount PublicKeySize (gens.take m) initialBestKey
        initialBestKey_length h1
    obtain ⟨w2, o2, hrun2, -, hmono, -, -⟩ :=
      doKeysRun_inv AddrForKey minWordCount PublicKeySize ((gens.drop m).take k) w1 hw1 h2
    refine ⟨w1, o1, w2, o1 ++ o2, hrun1, ?_, hmono⟩
    rw [doKeys, List.take_add, doKeysRun_append]
    simp only [hrun1, hrun2]

theorem doKeys_strictly_improving_witness :
    (∀ kp ∈ sampleGens, kp.pub.length = PublicKeySize) ∧
    ((∃ w out, doKeys stubAddrForKey 1 sampleGens = some (w, out) ∧
      List.Pairwise (fun earlier later => isBetter earlier.pub later.pub = some true) out) ∧
    (∀ m k, ∃ w1 o1 w2 o2,
      doKeys stubAddrForKey 1 (sampleGens.take m) = some (w1, o1) ∧
      doKeys stubAddrForKey 1 (sampleGens.take (m + k)) = some (w2, o2) ∧
      (w2 = w1 ∨ isBetter w1 w2 = some true))) :=
  ⟨by decide, doKeys_strictly_improving stubAddrForKey 1 sampleGens (by decide)⟩

/-- C9: one worker iteration on a generated key pair, with hit count h (0 when
the threshold is not positive), threshold t and watermark w of the length of
the public key: if h < t or the key is not better than w, nothing is sent and
the watermark stays w; otherwise the watermark becomes the public key and
exactly that key pair is sent. -/
theorem doKeysIter_filter_or_emit (AddrForKey : List Nat → List Nat) (t : Int)
    (w : List Nat) (kp : keySet) (hlen : w.length = kp.pub.length) :
    ∃ h b, hitCountFor AddrForKey t kp.pub = some h ∧ (t ≤ 0 → h = 0) ∧
      (0 < t → wordScan (AddrForKey kp.pub) = some h) ∧
      isBetter w kp.pub = some b ∧
      ((h < t ∨ b = false) → doKeysIter AddrForKey t w kp = some (w, none)) ∧
      (¬ (h < t ∨ b = false) → doKeysIter AddrForKey t w kp = some (kp.pub, some kp)) := by
  obtain ⟨h, b, hh, hb, hiter⟩ := doKeysIter_eq AddrForKey t w kp hlen
  obtain ⟨h1, hh1, -, hz, hpos⟩ := hitCountFor_returns AddrForKey t kp.pub
  rw [hh] at hh1
  simp only [Option.some.injEq] at hh1
  subst hh1
  refine ⟨h, b, hh, hz, hpos, hb, ?_, ?_⟩
  · intro hd
    rw [hiter, if_pos hd]
  · intro hd
    rw [hiter, if_neg hd]

theorem doKeysIter_filter_or_emit_witness :
    doKeysIter stubAddrForKey 1 initialBestKey
        ⟨[0x01], sampleKey [0x7f, 0x00, 0xde, 0xad, 0xbe, 0xef]⟩ =
      some (sampleKey [0x7f, 0x00, 0xde, 0xad, 0xbe, 0xef],
        some ⟨[0x01], sampleKey [0x7f, 0x00, 0xde, 0xad, 0xbe, 0xef]⟩) := by
  obtain ⟨h, b, hh, -, -, hb, -, hemit⟩ :=
    doKeysIter_filter_or_emit stubAddrForKey 1 initialBestKey
      ⟨[0x01], sampleKey [0x7f, 0x00, 0xde, 0xad, 0xbe, 0xef]⟩ (by decide)
  have h2 : hitCountFor stubAddrForKey 1 (sampleKey [0x7f, 0x00, 0xde, 0xad, 0xbe, 0xef]) =
      some 2 := by decide
  have b2 : isBetter initialBestKey (sampleKey [0x7f, 0x00, 0xde, 0xad, 0xbe, 0xef]) =
      some true := by decide
  rw [h2] at hh
  rw [b2] at hb
  simp only [Option.some.injEq] at hh hb
  subst hh; subst hb
  exact hemit (by decide)

/-! ## Claims on the Aggregator -/

/-- C10: for every list of received 32-byte candidates the receive loop
returns; each printed key is better than every key printed before it, so each
is better than the one printed just before, and no key value is printed
twice. -/
theorem mainLoop_prints_strictly_improving (AddrForKey : List Nat → List Nat)
    (received : List keySet)
    (hpub : ∀ kp ∈ received, kp.pub.length = PublicKeySize) :
    ∃ g recs, mainLoop AddrForKey received = some (g, recs) ∧
      List.Pairwise (fun earlier later => isBetter earlier.pub later.pub = some true) recs ∧
      List.Chain' (fun earlier later => isBetter earlier.pub later.pub = some true) recs ∧
      (recs.map Record.pub).Nodup := by
  obtain ⟨g, recs, hrun, hpair⟩ :=
    mainLoop_pairwise AddrForKey PublicKeySize (by decide) received hpub
  refine ⟨g, recs, hrun, hpair, hpair.chain', ?_⟩
  rw [List.Nodup, List.pairwise_map]
  refine hpair.imp ?_
  intro a b hab heq
  rw [heq, isBetter_self] at hab
  simp at hab

theorem mainLoop_prints_strictly_improving_witness :
    (∀ kp ∈ sampleGens.reverse ++ sampleGens, kp.pub.length = PublicKeySize) ∧
    ∃ g recs, mainLoop stubAddrForKey (sampleGens.reverse ++ sampleGens) = some (g, recs) ∧
      List.Pairwise (fun earlier later => isBetter earlier.pub later.pub = some true) recs ∧
      List.Chain' (fun earlier later => isBetter earlier.pub later.pub = some true) recs ∧
      (recs.map Record.pub).Nodup :=
  ⟨by decide,
    mainLoop_prints_strictly_improving stubAddrForKey (sampleGens.reverse ++ sampleGens)
      (by decide)⟩

/-- C11: one aggregator step on a received 32-byte candidate c with global best
g, unset or of 32 bytes: if g is unset or c is better than g, the global best
becomes c and the record of c is printed; otherwise the global best stays g and
nothing is printed. The step taken at startup, with g unset, prints c. -/
theorem mainIter_updates_iff_unset_or_better (AddrForKey : List Nat → List Nat)
    (g : List Nat) (c : keySet) (hc : c.pub.length = PublicKeySize)
    (hg : g = [] ∨ g.length = PublicKeySize) :
    ∃ b, isBetter g c.pub = some b ∧
      ((g = [] ∨ b = true) →
        mainIter AddrForKey g c = some (c.pub, some (recordOf AddrForKey c))) ∧
      (¬ (g = [] ∨ b = true) → mainIter AddrForKey g c = some (g, none)) ∧
      mainIter AddrForKey [] c = some (c.pub, some (recordOf AddrForKey c)) := by
  rcases hg with rfl | hg
  · refine ⟨false, isBetter_nil_left _, fun _ => mainIter_unset _ _, ?_, mainIter_unset _ _⟩
    intro h
    exact absurd (Or.inl rfl) h
  · have hpos : 0 < g.length := by rw [hg]; decide
    have hne : g ≠ [] := fun e => by rw [e] at hpos; exact absurd hpos (by decide)
    obtain ⟨b, hb, hiter⟩ := mainIter_eq AddrForKey g c (hg.trans hc.symm) hpos
    refine ⟨b, hb, ?_, ?_, mainIter_unset _ _⟩
    · rintro (h | h)
      · exact absurd h hne
      · rw [hiter, if_pos h]
        rfl
    · intro h
      have hb2 : ¬ b = true := fun e => h (Or.inr e)
      rw [hiter, if_neg hb2]

theorem mainIter_updates_iff_unset_or_better_witness :
    ∃ b, isBetter (sampleKey [0x10]) (sampleKey [0x02]) = some b ∧
      ((sampleKey [0x10] = [] ∨ b = true) →
        mainIter stubAddrForKey (sampleKey [0x10]) ⟨[0x03], sampleKey [0x02]⟩ =
          some (sampleKey [0x02], some (recordOf stubAddrForKey ⟨[0x03], sampleKey [0x02]⟩))) ∧
      (¬ (sampleKey [0x10] = [] ∨ b = true) →
        mainIter stubAddrForKey (sampleKey [0x10]) ⟨[0x03], sampleKey [0x02]⟩ =
          some (sampleKey [0x10], none)) ∧
      mainIter stubAddrForKey [] ⟨[0x03], sampleKey [0x02]⟩ =
        some (sampleKey [0x02], some (recordOf stubAddrForKey ⟨[0x03], sampleKey [0x02]⟩)) :=
  mainIter_updates_iff_unset_or_better stubAddrForKey (sampleKey [0x10])
    ⟨[0x03], sampleKey [0x02]⟩ (by decide) (Or.inr (by decide))

/-! ## Claims on the initial watermark, on failure and on bounds -/

/-- C15: the initial watermark of a worker is the 32-byte sequence with every
byte 0xff; for every 32-byte key k the watermark is not better than k, and
every 32-byte key other than the watermark is better than it. -/
theorem initialBestKey_is_worst (k : List Nat) (hlen : k.length = PublicKeySize)
    (hbytes : ∀ b ∈ k, b < 256) :
    initialBestKey = List.replicate 32 0xff ∧
    isBetter k initialBestKey = some false ∧
    (k ≠ initialBestKey → isBetter initialBestKey k = some true) := by
  have hl : k.length = initialBestKey.length := hlen.trans initialBestKey_length.symm
  refine ⟨rfl, (isBetter_false_iff _ _ hl).mpr (not_lexLess_initialBestKey k hbytes), ?_⟩
  intro hne
  rcases lexLess_total k initialBestKey hl hne with h | h
  · exact (isBetter_true_iff _ _ hl.symm).mpr h
  · exact absurd h (not_lexLess_initialBestKey k hbytes)

theorem initialBestKey_is_worst_witness :
    initialBestKey = List.replicate 32 0xff ∧
    isBetter (sampleKey [0xff, 0xff, 0xfe]) initialBestKey = some false ∧
    (sampleKey [0xff, 0xff, 0xfe] ≠ initialBestKey →
      isBetter initialBestKey (sampleKey [0xff, 0xff, 0xfe]) = some true) :=
  initialBestKey_is_worst (sampleKey [0xff, 0xff, 0xfe]) (by decide) (by decide)

/-- C16: `isBetter` returns on any two sequences of equal length and on an
unset global best with any candidate, of 32 bytes or not; a worker iteration returns on a
watermark and key of equal length; and the scan of a 16-byte address returns
and reads only indices from 2 to 7, all within bounds. -/
theorem ranking_scoring_filtering_return (AddrForKey : List Nat → List Nat)
    (minWordCount : Int) (oldPub newPub c addr bestKey : List Nat) (kp : keySet)
    (hlen : oldPub.length = newPub.length)
    (haddr : addr.length = 16) (hbest : bestKey.length = kp.pub.length) :
    (∃ b, isBetter oldPub newPub = some b) ∧
    isBetter [] c = some false ∧
    (∃ r, doKeysIter AddrForKey minWordCount bestKey kp = some r) ∧
    (∃ h, wordScan addr = some h) ∧
    (∀ i ∈ wordScanReads addr, 2 ≤ i ∧ i ≤ 7 ∧ i < addr.length) := by
  refine ⟨?_, isBetter_nil_left c, ?_, ?_, ?_⟩
  · obtain ⟨b, hb, -⟩ := isBetter_spec oldPub newPub hlen
    exact ⟨b, hb⟩
  · obtain ⟨h, b, -, -, hiter⟩ := doKeysIter_eq AddrForKey minWordCount bestKey kp hbest
    exact ⟨_, hiter⟩
  · exact ⟨_, wordScan_of_length_sixteen addr haddr⟩
  · intro i hi
    have := mem_wordScanLoopReads addr haddr _ 2 i (by decide) hi
    omega

theorem ranking_scoring_filtering_return_witness :
    (∃ b, isBetter [0x01, 0x02] [0x01, 0x03] = some b) ∧
    isBetter [] (sampleKey [0x05]) = some false ∧
    (∃ r, doKeysIter stubAddrForKey 1 initialBestKey ⟨[0x01], sampleKey [0x05]⟩ = some r) ∧
    (∃ h, wordScan (stubAddrForKey (sampleKey [0x05, 0x00, 0xde, 0xad])) = some h) ∧
    (∀ i ∈ wordScanReads (stubAddrForKey (sampleKey [0x05, 0x00, 0xde, 0xad])),
      2 ≤ i ∧ i ≤ 7 ∧ i < (stubAddrForKey (sampleKey [0x05, 0x00, 0xde, 0xad])).length) :=
  ranking_scoring_filtering_return stubAddrForKey 1 [0x01, 0x02] [0x01, 0x03]
    (sampleKey [0x05]) (stubAddrForKey (sampleKey [0x05, 0x00, 0xde, 0xad])) initialBestKey
    ⟨[0x01], sampleKey [0x05]⟩ (by decide) (by decide) (by decide)

/-- C20: the hit count of every 16-byte address is between 0 and 3, and a
worker with a threshold of 4 or more sends no key pair, for any generated keys
whose derived addresses have 16 bytes. -/
theorem hitCount_at_most_three_so_high_threshold_emits_nothing
    (AddrForKey : List Nat → List Nat) (minWordCount : Int) (gens : List keySet)
    (addr : List Nat) (haddr : addr.length = 16) (h4 : 4 ≤ minWordCount)
    (hgens : ∀ kp ∈ gens, (AddrForKey kp.pub).length = 16) :
    (∃ h, wordScan addr = some h ∧ 0 ≤ h ∧ h ≤ 3) ∧
    doKeys AddrForKey minWordCount gens = some (initialBestKey, []) := by
  constructor
  · refine ⟨_, wordScan_of_length_sixteen addr haddr, ?_, ?_⟩
    · omega
    · have := specHitCount_le_three addr
      omega
  · exact doKeysRun_high_threshold AddrForKey minWordCount h4 gens initialBestKey hgens

theorem hitCount_at_most_three_so_high_threshold_emits_nothing_witness :
    (∃ h, wordScan [0x02, 0x00, 0xde, 0xad, 0xbe, 0xef, 0xfa, 0xce,
        0xde, 0xad, 0xbe, 0xef, 0xfa, 0xce, 0xfe, 0xed] = some h ∧ 0 ≤ h ∧ h ≤ 3) ∧
    doKeys stubAddrForKey 4 sampleGens = some (initialBestKey, []) :=
  hitCount_at_most_three_so_high_threshold_emits_nothing stubAddrForKey 4 sampleGens
    [0x02, 0x00, 0xde, 0xad, 0xbe, 0xef, 0xfa, 0xce,
      0xde, 0xad, 0xbe, 0xef, 0xfa, 0xce, 0xfe, 0xed] (by decide) (by decide) (by decide)

/-! ## Claims on the threshold 0 and on the end-to-end scenario -/

/-- C14: with threshold 0, on generated 32-byte keys, the worker loop returns
the same watermark and the same key pairs sent for any two address derivers, and
the key pairs sent are the strict running minima of all generated keys below
the all-0xff watermark; at every position of the stream the key pair generated
there is sent, and becomes the watermark, exactly when its public key is better
than the watermark the worker holds at that moment; and a single iteration from
any watermark sends the key pair exactly when it is better than that
watermark. -/
theorem doKeys_threshold_zero_is_rank_search (A1 A2 : List Nat → List Nat)
    (gens : List keySet) (w : List Nat) (kp : keySet)
    (hpub : ∀ k ∈ gens, k.pub.length = PublicKeySize)
    (hw : w.length = kp.pub.length) :
    (∃ wf out, doKeys A1 0 gens = some (wf, out) ∧ doKeys A2 0 gens = some (wf, out) ∧
      out = runningMinima initialBestKey gens) ∧
    (∀ pre k post, gens = pre ++ k :: post →
      ∃ w1 out1 b, doKeys A1 0 pre = some (w1, out1) ∧ isBetter w1 k.pub = some b ∧
        doKeys A1 0 (pre ++ [k]) =
          some (if b = true then (k.pub, out1 ++ [k]) else (w1, out1))) ∧
    (∃ b, isBetter w kp.pub = some b ∧
      doKeysIter A1 0 w kp = some (if b = true then (kp.pub, some kp) else (w, none))) := by
  refine ⟨?_, ?_, ?_⟩
  · obtain ⟨wf, hrun⟩ :=
      doKeysRun_zero_eq_runningMinima A1 PublicKeySize gens initialBestKey
        initialBestKey_length hpub
    refine ⟨wf, _, hrun, ?_, rfl⟩
    rw [doKeys, ← doKeysRun_threshold_zero A1 A2 gens initialBestKey]
    exact hrun
  · intro pre k post hsplit
    have hpre : ∀ x ∈ pre, x.pub.length = PublicKeySize := fun x hx =>
      hpub x (by rw [hsplit]; exact List.mem_append_left _ hx)
    have hk : k.pub.length = PublicKeySize :=
      hpub k (by rw [hsplit]; exact List.mem_append_right _ (List.mem_cons_self _ _))
    obtain ⟨w1, out1, hrun, hw1, -⟩ :=
      doKeysRun_inv A1 0 PublicKeySize pre initialBestKey initialBestKey_length hpre
    obtain ⟨b, hb, -⟩ := isBetter_spec w1 k.pub (hw1.trans hk.symm)
    exact ⟨w1, out1, b, hrun, hb, doKeysRun_zero_snoc A1 initialBestKey pre k w1 out1 b hrun hb⟩
  · obtain ⟨b, hb, -⟩ := isBetter_spec w kp.pub hw
    refine ⟨b, hb, ?_⟩
    rw [doKeysIter_threshold_zero, hb]
    cases b <;> rfl

theorem doKeys_threshold_zero_is_rank_search_witness :
    (∀ k ∈ sampleGens, k.pub.length = PublicKeySize) ∧
    initialBestKey.length = (sampleKey [0x02]).length ∧
    (∃ wf out, doKeys stubAddrForKey 0 sampleGens = some (wf, out) ∧
      doKeys (fun _ => List.replicate 16 0xde) 0 sampleGens = some (wf, out) ∧
      out = runningMinima initialBestKey sampleGens) ∧
    (∀ pre k post, sampleGens = pre ++ k :: post →
      ∃ w1 out1 b, doKeys stubAddrForKey 0 pre = some (w1, out1) ∧
        isBetter w1 k.pub = some b ∧
        doKeys stubAddrForKey 0 (pre ++ [k]) =
          some (if b = true then (k.pub, out1 ++ [k]) else (w1, out1))) ∧
    (∃ b, isBetter initialBestKey (sampleKey [0x02]) = some b ∧
      doKeysIter stubAddrForKey 0 initialBestKey ⟨[0x03], sampleKey [0x02]⟩ =
        some (if b = true then (sampleKey [0x02], some ⟨[0x03], sampleKey [0x02]⟩)
          else (initialBestKey, none))) :=
  ⟨by decide, by decide,
    doKeys_threshold_zero_is_rank_search stubAddrForKey (fun _ => List.replicate 16 0xde)
      sampleGens initialBestKey ⟨[0x03], sampleKey [0x02]⟩ (by decide) (by decide)⟩

/-- C12, as stated, fails: in the scenario with every byte of the first key
0xff the number of print events is 1, not 2. -/
theorem scenario_does_not_print_twice :
    (singleWorkerRun stubAddrForKey 0 scenarioGens).map (fun r => r.2.length) = some 1 ∧
    (singleWorkerRun stubAddrForKey 0 scenarioGens).map (fun r => r.2.length) ≠ some 2 := by
  decide

/-- C12, amended: with threshold 0, a single worker and generated public keys
all-0xff, then one starting 0x00, 0x00, then one starting 0x00, 0x01, exactly
one print event occurs, for the second key, whatever the address deriver, the
private keys and the remaining bytes of the second and third key. -/
theorem scenario_prints_exactly_once (AddrForKey : List Nat → List Nat)
    (p1 p2 p3 t2 t3 : List Nat) :
    singleWorkerRun AddrForKey 0
        [⟨p1, List.replicate PublicKeySize 0xff⟩, ⟨p2, 0x00 :: 0x00 :: t2⟩,
          ⟨p3, 0x00 :: 0x01 :: t3⟩] =
      some (0x00 :: 0x00 :: t2, [recordOf AddrForKey ⟨p2, 0x00 :: 0x00 :: t2⟩]) := by
  have h1 : isBetter initialBestKey (List.replicate PublicKeySize 0xff) = some false :=
    isBetter_self _
  have h2 : isBetter initialBestKey (0x00 :: 0x00 :: t2) = some true := by
    rw [initialBestKey_cons, isBetter_cons_cons]
    simp
  have h3 : isBetter (0x00 :: 0x00 :: t2) (0x00 :: 0x01 :: t3) = some false := by
    rw [isBetter_cons_cons, isBetter_cons_cons]
    simp
  simp [singleWorkerRun, doKeys, doKeysRun, doKeysIter_threshold_zero, h1, h2, h3,
    mainLoop, mainRun, mainIter_unset, recordOf]

/-- C13: in the scenario with threshold 0, a single worker and generated public
keys starting 0xff, 0xff, then 0x00, 0x00, then 0x00, 0x01, whatever their
remaining bytes, the second key is printed and the third key is not. -/
theorem scenario_prints_second_not_third (AddrForKey : List Nat → List Nat)
    (p1 p2 p3 t1 t2 t3 : List Nat) (ht1 : t1.length = 30) :
    ∃ g recs, singleWorkerRun AddrForKey 0
        [⟨p1, 0xff :: 0xff :: t1⟩, ⟨p2, 0x00 :: 0x00 :: t2⟩, ⟨p3, 0x00 :: 0x01 :: t3⟩] =
        some (g, recs) ∧
      recordOf AddrForKey ⟨p2, 0x00 :: 0x00 :: t2⟩ ∈ recs ∧
      ∀ r ∈ recs, r.pub ≠ 0x00 :: 0x01 :: t3 := by
  have hl : initialBestKey.length = (0xff :: 0xff :: t1).length := by
    simp [initialBestKey, PublicKeySize, ht1]
  obtain ⟨b, h1, -⟩ := isBetter_spec initialBestKey (0xff :: 0xff :: t1) hl
  have h2 : isBetter initialBestKey (0x00 :: 0x00 :: t2) = some true := by
    rw [initialBestKey_cons, isBetter_cons_cons]
    simp
  have h3 : isBetter (0x00 :: 0x00 :: t2) (0x00 :: 0x01 :: t3) = some false := by
    rw [isBetter_cons_cons, isBetter_cons_cons]
    simp
  have h4 : isBetter (0xff :: 0xff :: t1) (0x00 :: 0x00 :: t2) = some true := by
    rw [isBetter_cons_cons]
    simp
  cases b
  · refine ⟨0x00 :: 0x00 :: t2, [recordOf AddrForKey ⟨p2, 0x00 :: 0x00 :: t2⟩], ?_, ?_, ?_⟩
    · simp [singleWorkerRun, doKeys, doKeysRun, doKeysIter_threshold_zero, h1, h2, h3,
        mainLoop, mainRun, mainIter_unset, recordOf]
    · simp
    · simp [recordOf]
  · refine ⟨0x00 :: 0x00 :: t2, [recordOf AddrForKey ⟨p1, 0xff :: 0xff :: t1⟩,
      recordOf AddrForKey ⟨p2, 0x00 :: 0x00 :: t2⟩], ?_, ?_, ?_⟩
    · simp [singleWorkerRun, doKeys, doKeysRun, doKeysIter_threshold_zero, h1, h2, h3, h4,
        mainLoop, mainRun, mainIter, isBetter_nil_left, recordOf]
    · simp
    · simp [recordOf]

theorem scenario_prints_second_not_third_witness :
    ∃ g recs, singleWorkerRun stubAddrForKey 0
        [⟨[0x0a], 0xff :: 0xff :: List.replicate 30 0xff⟩,
          ⟨[0x0b], 0x00 :: 0x00 :: List.replicate 30 0x00⟩,
          ⟨[0x0c], 0x00 :: 0x01 :: List.replicate 30 0x00⟩] = some (g, recs) ∧
      recordOf stubAddrForKey ⟨[0x0b], 0x00 :: 0x00 :: List.replicate 30 0x00⟩ ∈ recs ∧
      ∀ r ∈ recs, r.pub ≠ 0x00 :: 0x01 :: List.replicate 30 0x00 :=
  scenario_prints_second_not_third stubAddrForKey [0x0a] [0x0b] [0x0c]
    (List.replicate 30 0xff) (List.replicate 30 0x00) (List.replicate 30 0x00) (by decide)

/-! ## Claims on the single-worker pipeline and on the global best -/

/-- C18: with a single worker, for every threshold, every address deriver that
returns 16-byte addresses and all generated 32-byte keys, every key pair the
worker sends is printed, in order, and the key pairs sent are the strict
running minima, from the all-0xff watermark, of the generated keys whose hit
count meets the threshold. -/
theorem singleWorkerRun_prints_running_minima (AddrForKey : List Nat → List Nat)
    (minWordCount : Int) (gens : List keySet)
    (hpub : ∀ kp ∈ gens, kp.pub.length = PublicKeySize)
    (haddr : ∀ kp ∈ gens, (AddrForKey kp.pub).length = 16) :
    ∃ w out g, doKeys AddrForKey minWordCount gens = some (w, out) ∧
      singleWorkerRun AddrForKey minWordCount gens =
        some (g, out.map (recordOf AddrForKey)) ∧
      out = runningMinima initialBestKey
        (gens.filter (meetsThreshold AddrForKey minWordCount)) := by
  obtain ⟨w, out, hrun, -, -, hout, hpair⟩ :=
    doKeysRun_inv AddrForKey minWordCount PublicKeySize gens initialBestKey
      initialBestKey_length hpub
  obtain ⟨w2, hmin⟩ :=
    doKeysRun_eq_runningMinima AddrForKey minWordCount PublicKeySize gens initialBestKey
      initialBestKey_length hpub haddr
  obtain ⟨g, hmain⟩ := mainLoop_prints_all AddrForKey PublicKeySize (by decide) out
    (fun kp hk => (hout kp hk).2.1) hpair
  refine ⟨w, out, g, hrun, ?_, ?_⟩
  · have hd : doKeys AddrForKey minWordCount gens = some (w, out) := hrun
    simp only [singleWorkerRun, hd, hmain]
  · rw [hrun] at hmin
    simp only [Option.some.injEq, Prod.mk.injEq] at hmin
    exact hmin.2

theorem singleWorkerRun_prints_running_minima_witness :
    ∃ w out g, doKeys stubAddrForKey 1 sampleGens = some (w, out) ∧
      singleWorkerRun stubAddrForKey 1 sampleGens =
        some (g, out.map (recordOf stubAddrForKey)) ∧
      out = runningMinima initialBestKey
        (sampleGens.filter (meetsThreshold stubAddrForKey 1)) :=
  singleWorkerRun_prints_running_minima stubAddrForKey 1 sampleGens (by decide) (by decide)

/-- C19: after the receive loop has processed a non-empty list of received
32-byte candidates, in any order, the global best is the last public key
printed, is one of the public keys received, and every public key received is
equal to it or lexicographically above it. -/
theorem mainLoop_globalBest_is_minimum (AddrForKey : List Nat → List Nat)
    (received : List keySet) (hne : received ≠ [])
    (hpub : ∀ kp ∈ received, kp.pub.length = PublicKeySize) :
    ∃ g recs, mainLoop AddrForKey received = some (g, recs) ∧
      (recs.map Record.pub).getLast? = some g ∧
      g ∈ received.map keySet.pub ∧
      ∀ kp ∈ received, kp.pub = g ∨ lexLess g kp.pub := by
  cases received with
  | nil => exact absurd rfl hne
  | cons kp rest =>
    obtain ⟨g, recs, hrun, hlast, hfrom, hmin⟩ :=
      mainRun_minimum AddrForKey PublicKeySize (by decide) rest kp.pub
        (hpub kp (List.mem_cons_self _ _))
        (fun k hk => hpub k (List.mem_cons_of_mem _ hk))
    refine ⟨g, ⟨kp.priv, kp.pub, AddrForKey kp.pub⟩ :: recs, ?_, ?_, ?_, ?_⟩
    · simp [mainLoop, mainRun, mainIter_unset, hrun]
    · simp only [List.map_cons, List.getLast?_cons, hlast]
    · rcases hfrom with h | ⟨h1, -⟩
      · simp [h]
      · simp only [List.map_cons]
        exact List.mem_cons_of_mem _ h1
    · intro k hk
      rcases List.mem_cons.mp hk with rfl | hk
      · rcases hfrom with h | ⟨-, h2⟩
        · exact Or.inl h.symm
        · exact Or.inr h2
      · exact hmin k hk

theorem mainLoop_globalBest_is_minimum_witness :
    ∃ g recs, mainLoop stubAddrForKey (sampleGens.reverse ++ sampleGens) = some (g, recs) ∧
      (recs.map Record.pub).getLast? = some g ∧
      g ∈ (sampleGens.reverse ++ sampleGens).map keySet.pub ∧
      ∀ kp ∈ sampleGens.reverse ++ sampleGens, kp.pub = g ∨ lexLess g kp.pub :=
  mainLoop_globalBest_is_minimum stubAddrForKey (sampleGens.reverse ++ sampleGens)
    (by decide) (by decide)

end Genkeys
